import Mathlib

/-!
Verification development for the lichess monthly-database processing pipeline
(`lichess_database_functions.py`).

The Python source is shallowly embedded:

* Python `dict` / `defaultdict(int)` values are insertion-ordered association
  lists (`List (α × Nat)`); `d[k] += 1` on a `defaultdict` appends a fresh key
  at the end with count 1, and a bare `d[k]` read on a `defaultdict` inserts
  the key with value 0 (`ddTouch`), exactly as in CPython.
* Byte lines of the decompressed archive are `String`s; `b'X' in line` is an
  infix test on the character list; `''.join(filter(str.isdigit, line))`
  followed by `int(...)` is `digitsToNat (digitsOf line)`.
* The board-simulation collaborator (`chess.pgn` + `chess.Board`) is out of
  scope per the design document; it is abstracted as a function `sim` from the
  move-text line to the list of moveless FENs (initial position first, then
  the position after every ply).
* Iterating a CPython `set` of strings visits its elements in an order that
  depends on the per-process string-hash seed; the iteration order of a
  game's position set is therefore an extra parameter `ord`, constrained to
  enumerate exactly the distinct positions (a permutation of `List.dedup`).
* The scheduler `process_lichess_monthly_databases` is modelled as a
  transition system: the filesystem is the list of existing paths, worker
  processes advance through their write effects one step at a time, and the
  control-loop actions (reap one dead process, start a pending process,
  re-scan one database id, external download) are individual steps.
-/

namespace ChessAnalyzer

/-! ## Insertion-ordered dictionaries (Python `dict` / `defaultdict(int)`) -/

/-- `d[k]` read with `defaultdict(int)` default 0 (value part only). -/
def ddGet {α : Type} [DecidableEq α] : List (α × Nat) → α → Nat
  | [], _ => 0
  | (k, v) :: rest, k2 => if k = k2 then v else ddGet rest k2

/-- `d[k] += 1` on a `defaultdict(int)`: update in place, or append `(k, 1)`. -/
def ddIncr {α : Type} [DecidableEq α] : List (α × Nat) → α → List (α × Nat)
  | [], k2 => [(k2, 1)]
  | (k, v) :: rest, k2 =>
    if k = k2 then (k, v + 1) :: rest else (k, v) :: ddIncr rest k2

/-- `d[k] += n` on a `defaultdict(int)`. -/
def ddAdd {α : Type} [DecidableEq α] : List (α × Nat) → α → Nat → List (α × Nat)
  | [], k2, n => [(k2, n)]
  | (k, v) :: rest, k2, n =>
    if k = k2 then (k, v + n) :: rest else (k, v) :: ddAdd rest k2 n

/-- The side effect of a bare `d[k]` read on a `defaultdict(int)`: a missing
key is inserted at the end with value 0. -/
def ddTouch {α : Type} [DecidableEq α] : List (α × Nat) → α → List (α × Nat)
  | [], k2 => [(k2, 0)]
  | (k, v) :: rest, k2 =>
    if k = k2 then (k, v) :: rest else (k, v) :: ddTouch rest k2

/-- The keys of the dictionary, in insertion order. -/
def ddKeys {α : Type} (d : List (α × Nat)) : List α := d.map Prod.fst

/-! ## Lines of the decompressed archive

A line is a `String`; `b'X' in line` is an infix test on the character list,
`''.join(filter(str.isdigit, line))` is `digitsOf`, and `int(...)` applied to
a nonempty digit string is `digitsToNat`. -/

/-- `needle.isPrefixOf hay` on character lists. -/
def isPrefixCh : List Char → List Char → Bool
  | [], _ => true
  | _ :: _, [] => false
  | a :: as, b :: bs => a == b && isPrefixCh as bs

/-- Python `needle in hay` (substring containment) on character lists. -/
def hasInfixCh : List Char → List Char → Bool
  | [], pat => pat.isEmpty
  | a :: t, pat => isPrefixCh pat (a :: t) || hasInfixCh t pat

/-- Python `pat in line` for strings. -/
def containsSub (line pat : String) : Bool := hasInfixCh line.data pat.data

/-- `''.join(filter(str.isdigit, line))` as a character list. -/
def digitsOf (line : String) : List Char := line.data.filter Char.isDigit

/-- Python `int(s)` on a string of decimal digits. -/
def digitsToNat (ds : List Char) : Nat := ds.foldl (fun n c => n * 10 + (c.toNat - 48)) 0

/-- `update_game_elos` (source lines 538-557): a line containing `WhiteElo`
(resp. `BlackElo`) overwrites slot 0 (resp. slot 1) with the integer formed by
all digits of the line, provided at least one digit is present; otherwise the
slot keeps its previous value.  The slots are never reset between games. -/
def update_game_elos (line : String) (game_elos : Nat × Nat) : Nat × Nat :=
  let e0 := if containsSub line "WhiteElo" && !(digitsOf line).isEmpty
            then digitsToNat (digitsOf line) else game_elos.1
  let e1 := if containsSub line "BlackElo" && !(digitsOf line).isEmpty
            then digitsToNat (digitsOf line) else game_elos.2
  (e0, e1)

/-- The test `b'1. ' in line and b'"]' not in line` marking the move-text line
of a game record. -/
def isGameLine (line : String) : Bool :=
  containsSub line "1. " && !(containsSub line "\"]")

/-- The rating-slot state after scanning a sequence of lines, starting from
the initial `[0, 0]`. -/
def streamElos (lines : List String) : Nat × Nat :=
  lines.foldl (fun e l => update_game_elos l e) (0, 0)

/-! ## Pass 1: `generate_lichess_monthly_database_elo_csv` (lines 252-291)

The chunked `readlines` loop yields exactly the line sequence of the
decompressed archive, so the pass is a fold over the lines. -/

/-- One line of the pass-1 loop body (lines 269-275). -/
def pass1Step (st : (Nat × Nat) × List (Nat × Nat)) (line : String) :
    (Nat × Nat) × List (Nat × Nat) :=
  let e := update_game_elos line st.1
  (e, if isGameLine line then ddIncr st.2 (min e.1 e.2) else st.2)

/-- The elo histogram (`elo_counter`) accumulated by pass 1. -/
def generate_elo_histogram (lines : List String) : List (Nat × Nat) :=
  (lines.foldl pass1Step ((0, 0), [])).2

/-! ## Threshold derivation (`generate_lichess_monthly_database_pgn_csv`,
lines 330-342) -/

/-- Insert into a descending-sorted list (used to model Python
`sorted(elo_counter, reverse=True)`). -/
def insertDescNat (x : Nat) : List Nat → List Nat
  | [] => [x]
  | y :: rest => if x ≤ y then y :: insertDescNat x rest else x :: y :: rest

/-- `sorted(keys, reverse=True)`. -/
def sortDescNat (l : List Nat) : List Nat := l.foldr insertDescNat []

/-- The `for elo in sorted(elo_counter, reverse=True)` loop with running
cumulative count `acc`: the loop breaks with `min_elo = elo` as soon as
`cumulative * inverse_share >= total`, and leaves `min_elo = 0` otherwise. -/
def minEloGo (hist : List (Nat × Nat)) (isf total : Nat) : List Nat → Nat → Nat
  | [], _ => 0
  | e :: rest, acc =>
    let acc2 := acc + ddGet hist e
    if total ≤ acc2 * isf then e else minEloGo hist isf total rest acc2

/-- The skill threshold `min_elo` computed from the elo histogram, the
inverse-share factor and the archive's total game count. -/
def computeMinElo (hist : List (Nat × Nat)) (isf total : Nat) : Nat :=
  minEloGo hist isf total (sortDescNat (ddKeys hist)) 0

/-- The descending key traversal paired with its running cumulative count. -/
def runningPairs (hist : List (Nat × Nat)) : List Nat → Nat → List (Nat × Nat)
  | [], _ => []
  | e :: rest, acc => (e, acc + ddGet hist e) :: runningPairs hist rest (acc + ddGet hist e)

/-- Modelled from the spec's threshold sentence: iterate histogram keys in
descending order accumulating a running game count; the threshold is the
first rating value at which `runningCount * inverseShareFactor >=
totalGamesInArchive`, and 0 if no such value is reached. -/
def specThreshold (hist : List (Nat × Nat)) (isf total : Nat) : Nat :=
  match (runningPairs hist (sortDescNat (ddKeys hist)) 0).find?
      (fun p => total ≤ p.2 * isf) with
  | some p => p.1
  | none => 0

/-- The cumulative game count at or above rating `r` (over all buckets). -/
def cumCountAtOrAbove (hist : List (Nat × Nat)) (r : Nat) : Nat :=
  ((hist.filter (fun p => r ≤ p.1)).map Prod.snd).sum

/-- The histogram keys whose full cumulative count meets the bound. -/
def satisfyingElos (hist : List (Nat × Nat)) (isf total : Nat) : List Nat :=
  (ddKeys hist).filter (fun r => total ≤ cumCountAtOrAbove hist r * isf)

/-- The least element of a list, with a default for the empty list. -/
def leastD : List Nat → Nat → Nat
  | [], dflt => dflt
  | a :: rest, _ => rest.foldl min a

/-! ## Pass 2: position extraction and output
(`generate_lichess_monthly_database_pgn_csv`, lines 344-404)

`sim line` stands for the board-simulation collaborator: the list of moveless
FENs of one game, the initial position first and then the position after
every ply (lines 365-378 build exactly this sequence into a `set`).
`ord` stands for the iteration order of a CPython string `set`: given the
freshly built position sequence it yields the distinct positions in the order
the `for game_position in game_positions` loop visits them; any permutation
of `List.dedup` is a possible order, depending on the per-process hash
seed. -/

/-- Lines 380-381: every visited member of the per-game position set
increments the global `position_counts` by one. -/
def processGame (order : List String) (d : List (String × Nat)) : List (String × Nat) :=
  order.foldl ddIncr d

/-- One line of the pass-2 loop body (lines 359-381). -/
def pass2Step (sim : String → List String) (ord : List String → List String)
    (min_elo : Nat) (st : (Nat × Nat) × List (String × Nat)) (line : String) :
    (Nat × Nat) × List (String × Nat) :=
  let e := update_game_elos line st.1
  if isGameLine line ∧ min_elo ≤ min e.1 e.2
  then (e, processGame (ord (sim line)) st.2)
  else (e, st.2)

/-- The `position_counts` dictionary accumulated by pass 2. -/
def pass2Counts (sim : String → List String) (ord : List String → List String)
    (min_elo : Nat) (lines : List String) : List (String × Nat) :=
  (lines.foldl (pass2Step sim ord min_elo) ((0, 0), [])).2

/-- `INITIAL_POSITION_MOVELESS_FEN` (line 28). -/
def INITIAL_POSITION_MOVELESS_FEN : String :=
  "rnbqkbnr/pppppppp/8/8/8/8/PPPPPPPP/RNBQKBNR w KQkq - 0"

/-- Stable insertion into a list sorted by count descending: the new row goes
after the rows with strictly greater count and before rows with equal or
smaller count, preserving the relative order of equal counts. -/
def sortInsertCountDesc (p : String × Nat) : List (String × Nat) → List (String × Nat)
  | [] => [p]
  | q :: rest => if p.2 < q.2 then q :: sortInsertCountDesc p rest else p :: q :: rest

/-- `sort_values(by='count', ascending=False)` modelled as a deterministic
stable sort of the row sequence. -/
def sortByCountDesc (l : List (String × Nat)) : List (String × Nat) :=
  l.foldr sortInsertCountDesc []

/-- The outputs of one run of `generate_lichess_monthly_database_pgn_csv`:
the csv row sequence and the completion-log scalar fields, with `log` the
exact text written (line 404 evaluates `position_counts[INITIAL...]` before
`len(position_counts)`, and that defaultdict read inserts the key). -/
structure PgnOut where
  table : List (String × Nat)
  min_elo : Nat
  canonCount : Nat
  distinctCount : Nat
  log : String
  deriving DecidableEq

/-- `generate_lichess_monthly_database_pgn_csv` (lines 294-404), for a
verified archive: threshold derivation from the elo csv, pass 2 over the
archive lines, csv output (filter by `positions_limit`, then sort by count
descending), then the completion log. -/
def generate_lichess_monthly_database_pgn_csv (sim : String → List String)
    (ord : List String → List String) (eloCsv : List (Nat × Nat))
    (totalGames isf positionsLimit : Nat) (lines : List String) : PgnOut :=
  let min_elo := computeMinElo eloCsv isf totalGames
  let dd := pass2Counts sim ord min_elo lines
  let table := sortByCountDesc (dd.filter (fun p => positionsLimit ≤ p.2))
  let canon := ddGet dd INITIAL_POSITION_MOVELESS_FEN
  let dd2 := ddTouch dd INITIAL_POSITION_MOVELESS_FEN
  { table := table
    min_elo := min_elo
    canonCount := canon
    distinctCount := dd2.length
    log := toString min_elo ++ "\n" ++ toString canon ++ "\n" ++
      toString dd2.length ++ "\n" }

/-! ## `combine_monthly_csvs` (lines 145-188) -/

/-- The outputs of `combine_monthly_csvs`: the combined row sequence and the
two summary fields of `lichess_popular_positions_info`, with `log` the exact
text written. -/
structure CombineOut where
  table : List (String × Nat)
  gamesCount : Nat
  positionsCount : Nat
  log : String
  deriving DecidableEq

/-- `combine_monthly_csvs`: sum the rows of every completed per-month table
into one dictionary, filter by `positions_limit`, sort by count descending,
then write the summary log (games count from the canonical starting
position, positions count from the filtered row count, which pandas fixed
before the defaultdict read of line 186). -/
def combine_monthly_csvs (tables : List (List (String × Nat)))
    (positionsLimit : Nat) : CombineOut :=
  let dd := tables.foldl (fun d rows => rows.foldl (fun d2 r => ddAdd d2 r.1 r.2) d) []
  let retained := dd.filter (fun p => positionsLimit ≤ p.2)
  let table := sortByCountDesc retained
  let games := ddGet dd INITIAL_POSITION_MOVELESS_FEN
  { table := table
    gamesCount := games
    positionsCount := retained.length
    log := "GAMES_COUNT:     " ++ toString games ++ "\n" ++
      "POSITIONS_COUNT: " ++ toString retained.length ++ "\n" }

/-! ## `check_file_errors` (lines 35-55)

The filesystem is an association list from path to content digest (digest
computation itself is the external `sha256sum`).  The function only reads the
filesystem; it is returned unchanged alongside the verdict. -/

/-- Association-list lookup (Python `dict` read with `KeyError` as `none`). -/
def alookup : List (String × String) → String → Option String
  | [], _ => none
  | (k, v) :: rest, k2 => if k = k2 then some v else alookup rest k2

/-- The three failures `check_file_errors` can raise: `ValueError` for an id
with no checksum, `OSError` for a missing archive file, `OSError` for a
digest mismatch. -/
inductive FileCheckError where
  | checksumNotFound : String → FileCheckError
  | fileDoesNotExist : String → FileCheckError
  | wrongSha256sum : String → FileCheckError
  deriving DecidableEq

/-- `check_file_errors`: raises `checksumNotFound` when the filename has no
manifest entry, `fileDoesNotExist` when the local archive is absent, and
`wrongSha256sum` when the computed digest differs from the manifest entry.
The function performs no filesystem mutation, so the filesystem is returned
as received. -/
def check_file_errors (checksums : List (String × String))
    (database_id filename : String) (files : List (String × String)) :
    Except FileCheckError Unit × List (String × String) :=
  match alookup checksums filename with
  | none => (Except.error (FileCheckError.checksumNotFound database_id), files)
  | some expected =>
    match alookup files ("lichess/pgn_bz2/" ++ filename) with
    | none => (Except.error (FileCheckError.fileDoesNotExist filename), files)
    | some actual =>
      if expected = actual then (Except.ok (), files)
      else (Except.error (FileCheckError.wrongSha256sum filename), files)

/-- `lichess/elo_csv/` (the rating-summary csv directory). -/
def eloCsvDir : String := "lichess/elo_csv/"

/-- `lichess/pgn_csv/` (the position-frequency table directory). -/
def pgnCsvDir : String := "lichess/pgn_csv/"

/-- `lichess/pgn_log/` (the processing-log directory). -/
def pgnLogDir : String := "lichess/pgn_log/"

/-- `lichess/pgn_bz2/` (the archive directory). -/
def pgnBz2Dir : String := "lichess/pgn_bz2/"

/-- The rating-summary csv path written by
`generate_lichess_monthly_database_elo_csv` (line 287):
`lichess/elo_csv/{database_id}_elo.csv`. -/
def eloCsvPath (i : String) : String := eloCsvDir ++ (i ++ "_elo.csv")

/-- The path the in-loop re-scan tests for the rating-summary csv (line 499):
`lichess/elo_csv/{database_id}` — without the `_elo.csv` suffix. -/
def eloRescanPath (i : String) : String := eloCsvDir ++ i

/-- The position-frequency table path (line 394):
`lichess/pgn_csv/{database_id}.csv`. -/
def pgnCsvPath (i : String) : String := pgnCsvDir ++ (i ++ ".csv")

/-- The processing-log path (line 400): `lichess/pgn_log/{database_id}`. -/
def pgnLogPath (i : String) : String := pgnLogDir ++ i

/-- The archive path: `lichess/pgn_bz2/lichess_db_standard_rated_{id}.pgn.bz2`. -/
def pgnBz2Path (i : String) : String :=
  pgnBz2Dir ++ ("lichess_db_standard_rated_" ++ (i ++ ".pgn.bz2"))

/-- Creating a file: append the path unless already present. -/
def fsAdd (fs : List String) (p : String) : List String :=
  if p ∈ fs then fs else fs ++ [p]

/-- `Path.unlink`: remove the path. -/
def fsDel (fs : List String) (p : String) : List String :=
  fs.filter (fun q => q != p)

/-- The two worker kinds: `generate_lichess_monthly_database_elo_csv` and
`generate_lichess_monthly_database_pgn_csv`. -/
inductive TaskKind where
  | elo
  | pgn
  deriving DecidableEq

/-- A spawned worker process.  `pc` counts the file writes performed so far
(an elo worker performs one; a pgn worker writes the table and then the log);
`alive` is what `Process.is_alive()` reports. -/
structure WorkerTask where
  tid : String
  kind : TaskKind
  pc : Nat
  alive : Bool
  deriving DecidableEq

/-- The scheduler state: manifests-derived data, the filesystem, the
availability and `*_process_need` dictionaries, the two pending process
dictionaries (as id lists in insertion order), the running set, and ghost
histories (ids started per kind, ids whose archive was unlinked). -/
structure SchedState where
  ids : List String
  threads : Nat
  chkOk : String → Bool
  fs : List String
  bz2Avail : String → Bool
  eloAvail : String → Bool
  logAvail : String → Bool
  eloNeed : String → Bool
  pgnNeed : String → Bool
  eloPend : List String
  pgnPend : List String
  running : List WorkerTask
  startedElo : List String
  startedPgn : List String
  unlinked : List String

/-- Pointwise update of a boolean table. -/
def fupd (f : String → Bool) (x : String) (v : Bool) : String → Bool :=
  fun y => if y = x then v else f y

/-- Lines 492-496: refresh archive availability (path existence and digest
match). -/
def scanBz2 (s : SchedState) (i : String) : Bool :=
  s.bz2Avail i || (decide (pgnBz2Path i ∈ s.fs) && s.chkOk i)

/-- Lines 498-500: refresh rating-summary availability; the tested path is
`eloRescanPath` — `lichess/elo_csv/{database_id}` without the `_elo.csv`
suffix the writer uses. -/
def scanElo (s : SchedState) (i : String) : Bool :=
  s.eloAvail i || decide (eloRescanPath i ∈ s.fs)

/-- Lines 502-504: refresh processing-log availability. -/
def scanLog (s : SchedState) (i : String) : Bool :=
  s.logAvail i || decide (pgnLogPath i ∈ s.fs)

/-- Lines 506-517: condition for creating a pending elo process. -/
def makeEloB (s : SchedState) (i : String) : Bool :=
  scanBz2 s i && !scanElo s i && s.eloNeed i

/-- Lines 518-528: condition for creating a pending pgn process. -/
def makePgnB (s : SchedState) (i : String) : Bool :=
  scanBz2 s i && scanElo s i && !scanLog s i && s.pgnNeed i

/-- Lines 530-533: condition for unlinking the archive. -/
def doUnlinkB (s : SchedState) (i : String) : Bool :=
  scanBz2 s i && scanElo s i && scanLog s i

/-- One iteration of the re-scan block (lines 489-533) for one database id:
refresh the three availability flags from the filesystem (the elo-csv check
tests `eloRescanPath`, line 499), create at most one pending process guarded
by the `*_process_need` flags, and delete the archive when both the
processing log and the rating-summary csv are marked available. -/
def rescanOne (s : SchedState) (i : String) : SchedState :=
  { s with
    bz2Avail := fupd s.bz2Avail i (scanBz2 s i && !doUnlinkB s i)
    eloAvail := fupd s.eloAvail i (scanElo s i)
    logAvail := fupd s.logAvail i (scanLog s i)
    eloNeed := if makeEloB s i then fupd s.eloNeed i false else s.eloNeed
    pgnNeed := if makePgnB s i then fupd s.pgnNeed i false else s.pgnNeed
    eloPend := if makeEloB s i then s.eloPend ++ [i] else s.eloPend
    pgnPend := if makePgnB s i then s.pgnPend ++ [i] else s.pgnPend
    fs := if doUnlinkB s i then fsDel s.fs (pgnBz2Path i) else s.fs
    unlinked := if doUnlinkB s i then s.unlinked ++ [i] else s.unlinked }

/-- The run parameters: manifest ids, `threads_count`, the digest-match
verdict for each downloadable archive, and the filesystem at loop start. -/
structure InitParams where
  ids : List String
  threads : Nat
  chkOk : String → Bool
  fs0 : List String

/-- `check_monthly_database_pgn_bz2_availability` at startup. -/
def initBz2Avail (P : InitParams) : String → Bool :=
  fun i => decide (pgnBz2Path i ∈ P.fs0) && P.chkOk i

/-- `check_monthly_database_elo_csv_availability` at startup (line 75: the
correct `{database_id}_elo.csv` name). -/
def initEloAvail (P : InitParams) : String → Bool :=
  fun i => decide (eloCsvPath i ∈ P.fs0)

/-- `check_monthly_database_pgn_log_availability` at startup. -/
def initLogAvail (P : InitParams) : String → Bool :=
  fun i => decide (pgnLogPath i ∈ P.fs0)

/-- Accumulator of the initial process-creation loop (lines 437-460). -/
structure InitAcc where
  eloNeed : String → Bool
  pgnNeed : String → Bool
  eloPend : List String
  pgnPend : List String

/-- The initial process-creation loop (lines 437-460): for each id with a
verified archive, create an elo process when the rating-summary csv is
missing, otherwise a pgn process when the log is missing. -/
def initCreate (bz2A eloA logA : String → Bool) : List String → InitAcc → InitAcc
  | [], acc => acc
  | i :: rest, acc =>
    if bz2A i && !eloA i then
      initCreate bz2A eloA logA rest
        ⟨fupd acc.eloNeed i false, acc.pgnNeed, acc.eloPend ++ [i], acc.pgnPend⟩
    else if bz2A i && eloA i && !logA i then
      initCreate bz2A eloA logA rest
        ⟨acc.eloNeed, fupd acc.pgnNeed i false, acc.eloPend, acc.pgnPend ++ [i]⟩
    else initCreate bz2A eloA logA rest acc

/-- The scheduler state as `process_lichess_monthly_databases` enters its
control loop (lines 417-460). -/
def initState (P : InitParams) : SchedState :=
  let bz2A := initBz2Avail P
  let eloA := initEloAvail P
  let logA := initLogAvail P
  let acc := initCreate bz2A eloA logA P.ids
    ⟨fun i => !eloA i, fun i => !logA i, [], []⟩
  { ids := P.ids, threads := P.threads, chkOk := P.chkOk, fs := P.fs0,
    bz2Avail := bz2A, eloAvail := eloA, logAvail := logA,
    eloNeed := acc.eloNeed, pgnNeed := acc.pgnNeed,
    eloPend := acc.eloPend, pgnPend := acc.pgnPend,
    running := [], startedElo := [], startedPgn := [], unlinked := [] }

/-- One transition of the scheduler system. -/
inductive SchedStep : SchedState → SchedState → Prop where
  /-- Lines 463-467: drop a running task whose process has exited. -/
  | reap (s : SchedState) (pre post : List WorkerTask) (t : WorkerTask)
      (hrun : s.running = pre ++ t :: post) (hdead : t.alive = false) :
      SchedStep s { s with running := pre ++ post }
  /-- Lines 469-477: start the first pending elo process while a slot is
  free. -/
  | startElo (s : SchedState) (i : String) (rest : List String)
      (hcap : s.running.length < s.threads) (hpend : s.eloPend = i :: rest) :
      SchedStep s { s with eloPend := rest,
                           running := s.running ++ [⟨i, TaskKind.elo, 0, true⟩],
                           startedElo := s.startedElo ++ [i] }
  /-- Lines 479-487: start the first pending pgn process while a slot is free
  and no elo process is pending. -/
  | startPgn (s : SchedState) (i : String) (rest : List String)
      (hcap : s.running.length < s.threads) (helo : s.eloPend = [])
      (hpend : s.pgnPend = i :: rest) :
      SchedStep s { s with pgnPend := rest,
                           running := s.running ++ [⟨i, TaskKind.pgn, 0, true⟩],
                           startedPgn := s.startedPgn ++ [i] }
  /-- Lines 489-533: the re-scan block for one manifest id. -/
  | rescan (s : SchedState) (i : String) (hid : i ∈ s.ids) :
      SchedStep s (rescanOne s i)
  /-- An external downloader delivers an archive. -/
  | download (s : SchedState) (i : String) (hid : i ∈ s.ids) :
      SchedStep s { s with fs := fsAdd s.fs (pgnBz2Path i) }
  /-- A running elo worker writes `{id}_elo.csv` (line 287) and exits. -/
  | workEloWrite (s : SchedState) (pre post : List WorkerTask) (t : WorkerTask)
      (hrun : s.running = pre ++ t :: post) (hkind : t.kind = TaskKind.elo)
      (hpc : t.pc = 0) (halive : t.alive = true) :
      SchedStep s { s with fs := fsAdd s.fs (eloCsvPath t.tid),
                           running := pre ++ ⟨t.tid, TaskKind.elo, 1, false⟩ :: post }
  /-- A running pgn worker writes the position-frequency table (line 394). -/
  | workPgnTable (s : SchedState) (pre post : List WorkerTask) (t : WorkerTask)
      (hrun : s.running = pre ++ t :: post) (hkind : t.kind = TaskKind.pgn)
      (hpc : t.pc = 0) (halive : t.alive = true) :
      SchedStep s { s with fs := fsAdd s.fs (pgnCsvPath t.tid),
                           running := pre ++ ⟨t.tid, TaskKind.pgn, 1, true⟩ :: post }
  /-- A running pgn worker writes the processing log (line 400), strictly
  after the table write, and exits. -/
  | workPgnLog (s : SchedState) (pre post : List WorkerTask) (t : WorkerTask)
      (hrun : s.running = pre ++ t :: post) (hkind : t.kind = TaskKind.pgn)
      (hpc : t.pc = 1) (halive : t.alive = true) :
      SchedStep s { s with fs := fsAdd s.fs (pgnLogPath t.tid),
                           running := pre ++ ⟨t.tid, TaskKind.pgn, 2, false⟩ :: post }
  /-- A worker crashes: the process dies with no further writes. -/
  | crash (s : SchedState) (pre post : List WorkerTask) (t : WorkerTask)
      (hrun : s.running = pre ++ t :: post) (halive : t.alive = true) :
      SchedStep s { s with running := pre ++ ⟨t.tid, t.kind, t.pc, false⟩ :: post }

/-- States reachable in one run of `process_lichess_monthly_databases`. -/
inductive SchedReach (P : InitParams) : SchedState → Prop where
  | init : SchedReach P (initState P)
  | step {s t : SchedState} : SchedReach P s → SchedStep s t → SchedReach P t

/-- Well-formedness of the run parameters: manifest ids are distinct
7-character `filename[26:33]` slices, no stray suffix-less file sits in the
elo-csv directory at loop start, and the start-of-run filesystem satisfies
the completion invariant (a processing log only exists where its table
does). -/
structure GoodParams (P : InitParams) : Prop where
  nodup : P.ids.Nodup
  idLen : ∀ i ∈ P.ids, i.length ≤ 7
  noStray : ∀ i ∈ P.ids, eloRescanPath i ∉ P.fs0
  logTable : ∀ i ∈ P.ids, pgnLogPath i ∈ P.fs0 → pgnCsvPath i ∈ P.fs0

/-- The inductive invariant of the scheduler loop. -/
structure SchedInv (P : InitParams) (s : SchedState) : Prop where
  ids_eq : s.ids = P.ids
  threads_eq : s.threads = P.threads
  run_bound : s.running.length ≤ s.threads
  run_ids : ∀ t ∈ s.running, t.tid ∈ P.ids
  logA_file : ∀ i ∈ P.ids, s.logAvail i = true → pgnLogPath i ∈ s.fs
  log_table : ∀ i ∈ P.ids, pgnLogPath i ∈ s.fs → pgnCsvPath i ∈ s.fs
  pgn_pc_table : ∀ t ∈ s.running, t.kind = TaskKind.pgn → 1 ≤ t.pc →
    pgnCsvPath t.tid ∈ s.fs
  no_stray : ∀ i ∈ P.ids, eloRescanPath i ∉ s.fs
  eloA_eq : ∀ i ∈ P.ids, s.eloAvail i = initEloAvail P i
  needE : ∀ i, (i ∈ s.eloPend ∨ i ∈ s.startedElo) → s.eloNeed i = false
  needP : ∀ i, (i ∈ s.pgnPend ∨ i ∈ s.startedPgn) → s.pgnNeed i = false
  countE : ∀ i, (s.eloPend ++ s.startedElo).count i ≤ 1
  countP : ∀ i, (s.pgnPend ++ s.startedPgn).count i ≤ 1
  eloSide : ∀ i, (i ∈ s.eloPend ∨ i ∈ s.startedElo) →
    i ∈ P.ids ∧ initEloAvail P i = false
  pgnSide : ∀ i, (i ∈ s.pgnPend ∨ i ∈ s.startedPgn) →
    i ∈ P.ids ∧ initEloAvail P i = true
  unlinked_elo : ∀ i ∈ s.unlinked, i ∈ P.ids ∧ initEloAvail P i = true

/-- Witness run for the re-scan blindness: one month, archive present,
rating-summary csv absent at loop start. -/
def wParams9 : InitParams := ⟨["2015-03"], 1, fun _ => true, [pgnBz2Path "2015-03"]⟩

/-- The witness run after the elo worker is started. -/
def wState9b : SchedState :=
  { initState wParams9 with
    eloPend := [],
    running := (initState wParams9).running ++ [⟨"2015-03", TaskKind.elo, 0, true⟩],
    startedElo := (initState wParams9).startedElo ++ ["2015-03"] }

/-- The witness run after the elo worker has written `2015-03_elo.csv`. -/
def wState9c : SchedState :=
  { wState9b with
    fs := fsAdd wState9b.fs (eloCsvPath "2015-03"),
    running := [] ++ ⟨"2015-03", TaskKind.elo, 1, false⟩ :: [] }

/-- The witness run after a subsequent re-scan of the month. -/
def wState9d : SchedState := rescanOne wState9c "2015-03"

theorem ddKeys_nil {α : Type} : ddKeys ([] : List (α × Nat)) = [] := rfl

theorem ddKeys_cons {α : Type} (k0 : α) (v0 : Nat) (d : List (α × Nat)) :
    ddKeys ((k0, v0) :: d) = k0 :: ddKeys d := rfl

theorem ddGet_ddIncr {α : Type} [DecidableEq α] (d : List (α × Nat)) (k p : α) :
    ddGet (ddIncr d k) p = ddGet d p + (if p = k then 1 else 0) := by
  induction d with
  | nil =>
    simp only [ddIncr, ddGet]
    by_cases h : p = k
    · subst h; simp [ddGet]
    · have h2 : ¬ k = p := fun h3 => h h3.symm
      simp [ddGet, h, h2]
  | cons hd tl ih =>
    obtain ⟨k0, v0⟩ := hd
    simp only [ddIncr]
    by_cases h : k0 = k
    · subst h
      simp only [if_pos rfl, ddGet]
      by_cases h2 : k0 = p
      · subst h2; simp
      · have h3 : ¬ p = k0 := fun h3 => h2 h3.symm
        simp [h2, h3]
    · simp only [if_neg h, ddGet]
      by_cases h2 : k0 = p
      · subst h2
        simp [h]
      · simp [h2, ih]

theorem ddKeys_ddIncr {α : Type} [DecidableEq α] (d : List (α × Nat)) (k : α) :
    ddKeys (ddIncr d k) = if k ∈ ddKeys d then ddKeys d else ddKeys d ++ [k] := by
  induction d with
  | nil => simp [ddIncr, ddKeys]
  | cons hd tl ih =>
    obtain ⟨k0, v0⟩ := hd
    by_cases h : k0 = k
    · subst h
      simp [ddIncr, ddKeys_cons]
    · have h2 : ¬ k = k0 := fun h3 => h h3.symm
      simp only [ddIncr, if_neg h, ddKeys_cons, ih]
      by_cases h3 : k ∈ ddKeys tl
      · simp [h3, h2]
      · simp [h3, h2]

theorem ddKeys_nodup_ddIncr {α : Type} [DecidableEq α] (d : List (α × Nat)) (k : α)
    (h : (ddKeys d).Nodup) : (ddKeys (ddIncr d k)).Nodup := by
  rw [ddKeys_ddIncr]
  by_cases h2 : k ∈ ddKeys d
  · simpa [h2]
  · simpa [h2, List.nodup_append] using h

theorem ddVals_pos_ddIncr {α : Type} [DecidableEq α] (d : List (α × Nat)) (k : α)
    (h : ∀ p ∈ d, 1 ≤ p.2) : ∀ p ∈ ddIncr d k, 1 ≤ p.2 := by
  induction d with
  | nil => simp [ddIncr]
  | cons hd tl ih =>
    obtain ⟨k0, v0⟩ := hd
    by_cases h2 : k0 = k
    · subst h2
      intro p hp
      simp only [ddIncr, if_pos rfl] at hp
      rcases List.mem_cons.mp hp with h3 | h3
      · subst h3; simp
      · exact h p (List.mem_cons_of_mem _ h3)
    · intro p hp
      simp only [ddIncr, if_neg h2] at hp
      rcases List.mem_cons.mp hp with h3 | h3
      · subst h3; exact h _ (List.mem_cons_self _ _)
      · exact ih (fun q hq => h q (List.mem_cons_of_mem _ hq)) p h3

theorem mem_ddKeys_iff_pos {α : Type} [DecidableEq α] (d : List (α × Nat))
    (hv : ∀ p ∈ d, 1 ≤ p.2) (k : α) : k ∈ ddKeys d ↔ 1 ≤ ddGet d k := by
  induction d with
  | nil => simp [ddKeys_nil, ddGet]
  | cons hd tl ih =>
    obtain ⟨k0, v0⟩ := hd
    have ihtl := ih (fun q hq => hv q (List.mem_cons_of_mem _ hq))
    by_cases h : k0 = k
    · subst h
      have hv0 : 1 ≤ v0 := hv (k0, v0) (List.mem_cons_self _ _)
      simp [ddKeys_cons, ddGet, hv0]
    · have h2 : ¬ k = k0 := fun h3 => h h3.symm
      simp [ddKeys_cons, ddGet, h, h2, ihtl]

theorem length_ddTouch {α : Type} [DecidableEq α] (d : List (α × Nat)) (k : α) :
    (ddTouch d k).length = if k ∈ ddKeys d then d.length else d.length + 1 := by
  induction d with
  | nil => simp [ddTouch, ddKeys_nil]
  | cons hd tl ih =>
    obtain ⟨k0, v0⟩ := hd
    by_cases h : k0 = k
    · subst h; simp [ddTouch, ddKeys_cons]
    · have h2 : ¬ k = k0 := fun h3 => h h3.symm
      simp only [ddTouch, if_neg h, ddKeys_cons, List.length_cons, List.mem_cons, h2,
        false_or, ih]
      by_cases h3 : k ∈ ddKeys tl
      · simp [h3]
      · simp [h3]

theorem ddGet_eq_of_mem_nodup {α : Type} [DecidableEq α] (d : List (α × Nat))
    (hn : (ddKeys d).Nodup) {k : α} {v : Nat} (h : (k, v) ∈ d) : ddGet d k = v := by
  induction d with
  | nil => simp at h
  | cons hd tl ih =>
    obtain ⟨k0, v0⟩ := hd
    have hn2 := List.nodup_cons.mp (by simpa [ddKeys_cons] using hn)
    rcases List.mem_cons.mp h with h2 | h2
    · rw [Prod.mk.injEq] at h2
      obtain ⟨rfl, rfl⟩ := h2
      simp [ddGet]
    · have hk : ¬ k0 = k := by
        intro h3
        subst h3
        exact hn2.1 (List.mem_map.mpr ⟨(k0, v), h2, rfl⟩)
      simp only [ddGet, if_neg hk]
      exact ih hn2.2 h2

theorem mem_of_ddGet_pos {α : Type} [DecidableEq α] (d : List (α × Nat))
    {k : α} (h : 1 ≤ ddGet d k) : (k, ddGet d k) ∈ d := by
  induction d with
  | nil => simp [ddGet] at h
  | cons hd tl ih =>
    obtain ⟨k0, v0⟩ := hd
    by_cases h2 : k0 = k
    · subst h2
      simp [ddGet]
    · simp only [ddGet, if_neg h2] at h ⊢
      exact List.mem_cons_of_mem _ (ih h)

theorem minEloGo_eq_find (hist : List (Nat × Nat)) (isf total : Nat) :
    ∀ (L : List Nat) (acc : Nat),
      minEloGo hist isf total L acc =
        (match (runningPairs hist L acc).find? (fun p => total ≤ p.2 * isf) with
         | some p => p.1
         | none => 0) := by
  intro L
  induction L with
  | nil => intro acc; simp [minEloGo, runningPairs]
  | cons e rest ih =>
    intro acc
    by_cases h : total ≤ (acc + ddGet hist e) * isf
    · simp [minEloGo, runningPairs, List.find?, h]
    · simp only [minEloGo, runningPairs, List.find?, h, if_neg h, decide_eq_true_eq]
      rw [ih]
      simp [h]

/-- The source threshold scan agrees with the spec's description of it. -/
theorem computeMinElo_eq_specThreshold (hist : List (Nat × Nat)) (isf total : Nat) :
    computeMinElo hist isf total = specThreshold hist isf total := by
  rw [computeMinElo, specThreshold, minEloGo_eq_find]

theorem minEloGo_eq_zero (hist : List (Nat × Nat)) (isf total : Nat) :
    ∀ (L : List Nat) (acc : Nat),
      (acc + (L.map (ddGet hist)).sum) * isf < total →
      minEloGo hist isf total L acc = 0 := by
  intro L
  induction L with
  | nil => intro acc _; simp [minEloGo]
  | cons e rest ih =>
    intro acc hlt
    have h1 : (acc + ddGet hist e) * isf < total := by
      have hle : acc + ddGet hist e ≤ acc + (ddGet hist e + (rest.map (ddGet hist)).sum) := by
        omega
      calc (acc + ddGet hist e) * isf
          ≤ (acc + (ddGet hist e + (rest.map (ddGet hist)).sum)) * isf :=
            Nat.mul_le_mul_right _ hle
        _ < total := by simpa [List.map_cons, List.sum_cons, Nat.add_assoc] using hlt
    have h2 : ¬ total ≤ (acc + ddGet hist e) * isf := Nat.not_le.mpr h1
    simp only [minEloGo, if_neg h2]
    exact ih _ (by simpa [List.map_cons, List.sum_cons, Nat.add_assoc] using hlt)

theorem insertDescNat_perm (x : Nat) (l : List Nat) :
    (insertDescNat x l).Perm (x :: l) := by
  induction l with
  | nil => simp [insertDescNat]
  | cons y rest ih =>
    by_cases h : x ≤ y
    · simp only [insertDescNat, if_pos h]
      exact (ih.cons y).trans (List.Perm.swap x y rest)
    · simp [insertDescNat, h]

theorem sortDescNat_perm (l : List Nat) : (sortDescNat l).Perm l := by
  induction l with
  | nil => simp [sortDescNat]
  | cons x rest ih =>
    simp only [sortDescNat, List.foldr_cons]
    exact (insertDescNat_perm x _).trans (ih.cons x)

theorem map_ddGet_self {α : Type} [DecidableEq α] (d : List (α × Nat))
    (hn : (ddKeys d).Nodup) : (ddKeys d).map (ddGet d) = d.map Prod.snd := by
  have : ∀ k ∈ ddKeys d, ddGet d k = ddGet d k := fun _ _ => rfl
  have hmap : (ddKeys d).map (ddGet d) = d.map (fun p => ddGet d p.1) := by
    simp [ddKeys, List.map_map, Function.comp]
  rw [hmap]
  apply List.map_congr_left
  intro p hp
  exact ddGet_eq_of_mem_nodup d hn (by simpa using hp)

/-- With distinct histogram keys, if the grand total of bucket counts scaled
by the inverse share still falls short of the archive count, the scan returns
the fallback threshold 0. -/
theorem computeMinElo_fallback_zero (hist : List (Nat × Nat)) (isf total : Nat)
    (hn : (ddKeys hist).Nodup) (hlt : (hist.map Prod.snd).sum * isf < total) :
    computeMinElo hist isf total = 0 := by
  apply minEloGo_eq_zero
  have hperm : ((sortDescNat (ddKeys hist)).map (ddGet hist)).Perm
      ((ddKeys hist).map (ddGet hist)) := (sortDescNat_perm _).map _
  rw [Nat.zero_add, hperm.sum_eq, map_ddGet_self hist hn]
  exact hlt

/-! ## Lemmas about pass 2 -/

theorem ddGet_processGame (order : List String) (d : List (String × Nat)) (p : String) :
    ddGet (processGame order d) p = ddGet d p + order.count p := by
  induction order generalizing d with
  | nil => simp [processGame]
  | cons a rest ih =>
    have : processGame (a :: rest) d = processGame rest (ddIncr d a) := rfl
    rw [this, ih, ddGet_ddIncr, List.count_cons]
    by_cases h : p = a
    · simp [h, Nat.add_assoc, Nat.add_comm, Nat.add_left_comm]
    · have h2 : ¬ a = p := fun h3 => h h3.symm
      simp [h, h2]

theorem processGame_vals_pos (order : List String) (d : List (String × Nat))
    (h : ∀ p ∈ d, 1 ≤ p.2) : ∀ p ∈ processGame order d, 1 ≤ p.2 := by
  induction order generalizing d with
  | nil => simpa [processGame] using h
  | cons a rest ih =>
    have : processGame (a :: rest) d = processGame rest (ddIncr d a) := rfl
    rw [this]
    exact ih _ (ddVals_pos_ddIncr d a h)

theorem processGame_keys_nodup (order : List String) (d : List (String × Nat))
    (h : (ddKeys d).Nodup) : (ddKeys (processGame order d)).Nodup := by
  induction order generalizing d with
  | nil => simpa [processGame] using h
  | cons a rest ih =>
    have : processGame (a :: rest) d = processGame rest (ddIncr d a) := rfl
    rw [this]
    exact ih _ (ddKeys_nodup_ddIncr d a h)

theorem pass2_fold_vals_pos (sim : String → List String) (ord : List String → List String)
    (min_elo : Nat) (lines : List String) :
    ∀ (e : Nat × Nat) (d : List (String × Nat)), (∀ p ∈ d, 1 ≤ p.2) →
      ∀ p ∈ (lines.foldl (pass2Step sim ord min_elo) (e, d)).2, 1 ≤ p.2 := by
  induction lines with
  | nil => intro e d h; simpa using h
  | cons l rest ih =>
    intro e d h
    simp only [List.foldl_cons, pass2Step]
    split
    · exact ih _ _ (processGame_vals_pos _ _ h)
    · exact ih _ _ h

theorem pass2_fold_keys_nodup (sim : String → List String) (ord : List String → List String)
    (min_elo : Nat) (lines : List String) :
    ∀ (e : Nat × Nat) (d : List (String × Nat)), (ddKeys d).Nodup →
      (ddKeys (lines.foldl (pass2Step sim ord min_elo) (e, d)).2).Nodup := by
  induction lines with
  | nil => intro e d h; simpa using h
  | cons l rest ih =>
    intro e d h
    simp only [List.foldl_cons, pass2Step]
    split
    · exact ih _ _ (processGame_keys_nodup _ _ h)
    · exact ih _ _ h

theorem pass2Counts_vals_pos (sim : String → List String) (ord : List String → List String)
    (min_elo : Nat) (lines : List String) :
    ∀ p ∈ pass2Counts sim ord min_elo lines, 1 ≤ p.2 :=
  pass2_fold_vals_pos sim ord min_elo lines (0, 0) [] (by simp)

theorem pass2Counts_keys_nodup (sim : String → List String)
    (ord : List String → List String) (min_elo : Nat) (lines : List String) :
    (ddKeys (pass2Counts sim ord min_elo lines)).Nodup :=
  pass2_fold_keys_nodup sim ord min_elo lines (0, 0) [] (by simp [ddKeys_nil])

theorem count_dedup_order (ps : List String) (ordL : List String)
    (h : ordL.Perm ps.dedup) (p : String) :
    ordL.count p = if p ∈ ps then 1 else 0 := by
  rw [h.count_eq, List.count_dedup]

theorem pass2_fold_pointwise (sim : String → List String)
    (ord1 ord2 : List String → List String)
    (h1 : ∀ l, (ord1 l).Perm l.dedup) (h2 : ∀ l, (ord2 l).Perm l.dedup)
    (min_elo : Nat) (lines : List String) :
    ∀ (e : Nat × Nat) (d1 d2 : List (String × Nat)),
      (∀ p, ddGet d1 p = ddGet d2 p) →
      ∀ p, ddGet ((lines.foldl (pass2Step sim ord1 min_elo) (e, d1)).2) p =
        ddGet ((lines.foldl (pass2Step sim ord2 min_elo) (e, d2)).2) p := by
  induction lines with
  | nil => intro e d1 d2 h p; simpa using h p
  | cons l rest ih =>
    intro e d1 d2 h p
    simp only [List.foldl_cons, pass2Step]
    split
    · apply ih
      intro q
      rw [ddGet_processGame, ddGet_processGame, h q,
        count_dedup_order _ _ (h1 (sim l)), count_dedup_order _ _ (h2 (sim l))]
    · exact ih _ _ _ h p

theorem pass2Counts_pointwise (sim : String → List String)
    (ord1 ord2 : List String → List String)
    (h1 : ∀ l, (ord1 l).Perm l.dedup) (h2 : ∀ l, (ord2 l).Perm l.dedup)
    (min_elo : Nat) (lines : List String) (p : String) :
    ddGet (pass2Counts sim ord1 min_elo lines) p =
      ddGet (pass2Counts sim ord2 min_elo lines) p :=
  pass2_fold_pointwise sim ord1 ord2 h1 h2 min_elo lines (0, 0) [] [] (fun _ => rfl) p

theorem dd_perm_of_pointwise (d1 d2 : List (String × Nat))
    (hv1 : ∀ p ∈ d1, 1 ≤ p.2) (hv2 : ∀ p ∈ d2, 1 ≤ p.2)
    (hn1 : (ddKeys d1).Nodup) (hn2 : (ddKeys d2).Nodup)
    (hpt : ∀ p, ddGet d1 p = ddGet d2 p) : d1.Perm d2 := by
  refine (List.perm_ext_iff_of_nodup (hn1.of_map Prod.fst) (hn2.of_map Prod.fst)).mpr ?_
  rintro ⟨k, v⟩
  constructor
  · intro hm
    have hv : 1 ≤ v := hv1 _ hm
    have hg : ddGet d1 k = v := ddGet_eq_of_mem_nodup d1 hn1 hm
    have hg2 : ddGet d2 k = v := (hpt k).symm.trans hg
    have := mem_of_ddGet_pos d2 (k := k) (by rw [hg2]; exact hv)
    rwa [hg2] at this
  · intro hm
    have hv : 1 ≤ v := hv2 _ hm
    have hg : ddGet d2 k = v := ddGet_eq_of_mem_nodup d2 hn2 hm
    have hg2 : ddGet d1 k = v := (hpt k).trans hg
    have := mem_of_ddGet_pos d1 (k := k) (by rw [hg2]; exact hv)
    rwa [hg2] at this

theorem sortInsertCountDesc_perm (p : String × Nat) (l : List (String × Nat)) :
    (sortInsertCountDesc p l).Perm (p :: l) := by
  induction l with
  | nil => simp [sortInsertCountDesc]
  | cons q rest ih =>
    by_cases h : p.2 < q.2
    · simp only [sortInsertCountDesc, if_pos h]
      exact (ih.cons q).trans (List.Perm.swap p q rest)
    · simp [sortInsertCountDesc, h]

theorem sortByCountDesc_perm (l : List (String × Nat)) : (sortByCountDesc l).Perm l := by
  induction l with
  | nil => simp [sortByCountDesc]
  | cons p rest ih =>
    simp only [sortByCountDesc, List.foldr_cons]
    exact (sortInsertCountDesc_perm p _).trans (ih.cons p)

/-! ## Lemmas about rating-slot updates (both passes) -/

theorem update_game_elos_white_keep (line : String) (e : Nat × Nat)
    (h : ¬ (containsSub line "WhiteElo" = true ∧ digitsOf line ≠ [])) :
    (update_game_elos line e).1 = e.1 := by
  simp only [update_game_elos]
  by_cases h1 : containsSub line "WhiteElo" = true
  · have h2 : digitsOf line = [] := by
      by_contra h3
      exact h ⟨h1, h3⟩
    simp [h1, h2]
  · rw [Bool.not_eq_true] at h1
    simp [h1]

theorem update_game_elos_black_keep (line : String) (e : Nat × Nat)
    (h : ¬ (containsSub line "BlackElo" = true ∧ digitsOf line ≠ [])) :
    (update_game_elos line e).2 = e.2 := by
  simp only [update_game_elos]
  by_cases h1 : containsSub line "BlackElo" = true
  · have h2 : digitsOf line = [] := by
      by_contra h3
      exact h ⟨h1, h3⟩
    simp [h1, h2]
  · rw [Bool.not_eq_true] at h1
    simp [h1]

theorem update_game_elos_noop (line : String) (e : Nat × Nat)
    (hw : containsSub line "WhiteElo" = false) (hb : containsSub line "BlackElo" = false) :
    update_game_elos line e = e := by
  simp [update_game_elos, hw, hb]

theorem streamElos_append (l1 l2 : List String) :
    streamElos (l1 ++ l2) = l2.foldl (fun e l => update_game_elos l e) (streamElos l1) := by
  simp [streamElos, List.foldl_append]

theorem foldl_update_noop (seg : List String)
    (h : ∀ l ∈ seg, containsSub l "WhiteElo" = false ∧ containsSub l "BlackElo" = false) :
    ∀ e : Nat × Nat, seg.foldl (fun e l => update_game_elos l e) e = e := by
  induction seg with
  | nil => intro e; rfl
  | cons l rest ih =>
    intro e
    have hl := h l (List.mem_cons_self _ _)
    simp only [List.foldl_cons, update_game_elos_noop l e hl.1 hl.2]
    exact ih (fun q hq => h q (List.mem_cons_of_mem _ hq)) e

theorem foldl_update_white_zero (pre : List String)
    (h : ∀ l ∈ pre, ¬ (containsSub l "WhiteElo" = true ∧ digitsOf l ≠ [])) :
    (streamElos pre).1 = 0 := by
  suffices h2 : ∀ e : Nat × Nat,
      (pre.foldl (fun e l => update_game_elos l e) e).1 = e.1 by
    exact h2 (0, 0)
  induction pre with
  | nil => intro e; rfl
  | cons l rest ih =>
    intro e
    simp only [List.foldl_cons]
    rw [ih (fun q hq => h q (List.mem_cons_of_mem _ hq))]
    exact update_game_elos_white_keep l e (h l (List.mem_cons_self _ _))

theorem foldl_update_black_zero (pre : List String)
    (h : ∀ l ∈ pre, ¬ (containsSub l "BlackElo" = true ∧ digitsOf l ≠ [])) :
    (streamElos pre).2 = 0 := by
  suffices h2 : ∀ e : Nat × Nat,
      (pre.foldl (fun e l => update_game_elos l e) e).2 = e.2 by
    exact h2 (0, 0)
  induction pre with
  | nil => intro e; rfl
  | cons l rest ih =>
    intro e
    simp only [List.foldl_cons]
    rw [ih (fun q hq => h q (List.mem_cons_of_mem _ hq))]
    exact update_game_elos_black_keep l e (h l (List.mem_cons_self _ _))

theorem pass1_fold_fst (lines : List String) :
    ∀ st : (Nat × Nat) × List (Nat × Nat),
      (lines.foldl pass1Step st).1 = lines.foldl (fun e l => update_game_elos l e) st.1 := by
  induction lines with
  | nil => intro st; rfl
  | cons l rest ih =>
    intro st
    simp only [List.foldl_cons, pass1Step]
    exact ih _

theorem pass1_fold_noop (seg : List String)
    (h : ∀ l ∈ seg, containsSub l "WhiteElo" = false ∧ containsSub l "BlackElo" = false ∧
      isGameLine l = false) :
    ∀ st : (Nat × Nat) × List (Nat × Nat), seg.foldl pass1Step st = st := by
  induction seg with
  | nil => intro st; rfl
  | cons l rest ih =>
    intro st
    obtain ⟨hw, hb, hg⟩ := h l (List.mem_cons_self _ _)
    simp only [List.foldl_cons, pass1Step, hg, update_game_elos_noop l st.1 hw hb,
      Bool.false_eq_true, if_false]
    exact ih (fun q hq => h q (List.mem_cons_of_mem _ hq)) st

theorem pass2_fold_noop (sim : String → List String) (ord : List String → List String)
    (min_elo : Nat) (seg : List String)
    (h : ∀ l ∈ seg, containsSub l "WhiteElo" = false ∧ containsSub l "BlackElo" = false ∧
      isGameLine l = false) :
    ∀ st : (Nat × Nat) × List (String × Nat),
      seg.foldl (pass2Step sim ord min_elo) st = st := by
  induction seg with
  | nil => intro st; rfl
  | cons l rest ih =>
    intro st
    obtain ⟨hw, hb, hg⟩ := h l (List.mem_cons_self _ _)
    have : pass2Step sim ord min_elo st l = st := by
      simp [pass2Step, hg, update_game_elos_noop l st.1 hw hb]
    simp only [List.foldl_cons, this]
    exact ih (fun q hq => h q (List.mem_cons_of_mem _ hq)) st

/-! ## Scheduler: `process_lichess_monthly_databases` (lines 407-535)

The loop is modelled as a transition system.  The filesystem is the list of
existing paths.  Worker processes (spawned `mp.Process` instances) advance
through their file-write effects one at a time and may die at any point; the
control-loop actions are separate steps, so every interleaving of the real
system is covered.  Database ids are the 7-character `filename[26:33]`
slices. -/

/-- Two strings with distinct prefixes of equal length are distinct. -/
theorem string_append_ne_of_ne {a b : String} (hlen : a.length = b.length) (hne : a ≠ b)
    (x y : String) : a ++ x ≠ b ++ y := by
  intro h
  apply hne
  have hd : (a ++ x).data = (b ++ y).data := congrArg String.data h
  rw [String.data_append, String.data_append] at hd
  exact String.ext (List.append_inj hd hlen).1

/-- Two strings of distinct lengths are distinct. -/
theorem string_ne_of_length_ne {a b : String} (h : a.length ≠ b.length) : a ≠ b :=
  fun h2 => h (by rw [h2])

/-- Appending the same string on both sides of a distinct pair keeps them
distinct. -/
theorem string_append_right_ne {a b : String} (hne : a ≠ b) (c : String) :
    a ++ c ≠ b ++ c := by
  intro h
  apply hne
  have hd : (a ++ c).data = (b ++ c).data := congrArg String.data h
  rw [String.data_append, String.data_append] at hd
  exact String.ext (List.append_cancel_right hd)

theorem string_append_left_cancel {a x y : String} (h : a ++ x = a ++ y) : x = y := by
  have hd : (a ++ x).data = (a ++ y).data := congrArg String.data h
  rw [String.data_append, String.data_append] at hd
  exact String.ext (List.append_cancel_left hd)

theorem eloRescanPath_ne_eloCsvPath {j : String} (hj : j.length ≤ 7) (i : String) :
    eloRescanPath j ≠ eloCsvPath i := by
  apply string_ne_of_length_ne
  simp only [eloRescanPath, eloCsvPath, String.length_append]
  have : ("_elo.csv" : String).length = 8 := by decide
  omega

theorem eloRescanPath_ne_pgnCsvPath (j i : String) :
    eloRescanPath j ≠ pgnCsvPath i := by
  apply string_append_ne_of_ne (a := eloCsvDir) (b := pgnCsvDir) (by decide) (by decide)

theorem eloRescanPath_ne_pgnLogPath (j i : String) :
    eloRescanPath j ≠ pgnLogPath i := by
  apply string_append_ne_of_ne (a := eloCsvDir) (b := pgnLogDir) (by decide) (by decide)

theorem eloRescanPath_ne_pgnBz2Path (j i : String) :
    eloRescanPath j ≠ pgnBz2Path i := by
  apply string_append_ne_of_ne (a := eloCsvDir) (b := pgnBz2Dir) (by decide) (by decide)

theorem pgnBz2Path_ne_pgnLogPath (i j : String) : pgnBz2Path i ≠ pgnLogPath j := by
  apply string_append_ne_of_ne (a := pgnBz2Dir) (b := pgnLogDir) (by decide) (by decide)

theorem pgnBz2Path_ne_pgnCsvPath (i j : String) : pgnBz2Path i ≠ pgnCsvPath j := by
  apply string_append_ne_of_ne (a := pgnBz2Dir) (b := pgnCsvDir) (by decide) (by decide)

theorem pgnBz2Path_inj {i j : String} (h : pgnBz2Path i = pgnBz2Path j) : i = j := by
  have h2 := string_append_left_cancel (string_append_left_cancel h)
  have hd : (i ++ ".pgn.bz2").data = (j ++ ".pgn.bz2").data := congrArg String.data h2
  rw [String.data_append, String.data_append] at hd
  exact String.ext (List.append_cancel_right hd)

theorem mem_fsAdd (fs : List String) (p a : String) :
    a ∈ fsAdd fs p ↔ a ∈ fs ∨ a = p := by
  by_cases h : p ∈ fs
  · simp only [fsAdd, if_pos h]
    constructor
    · exact Or.inl
    · rintro (h2 | rfl)
      · exact h2
      · exact h
  · simp [fsAdd, h]

theorem mem_fsDel (fs : List String) (p a : String) :
    a ∈ fsDel fs p ↔ a ∈ fs ∧ a ≠ p := by
  simp [fsDel, List.mem_filter]

theorem fupd_same (f : String → Bool) (x : String) (v : Bool) : fupd f x v x = v := by
  simp [fupd]

theorem fupd_other (f : String → Bool) {x y : String} (h : y ≠ x) (v : Bool) :
    fupd f x v y = f y := by
  simp [fupd, h]

/-- More path distinctions used by the invariant proofs. -/
theorem pgnLogPath_ne_eloCsvPath (j i : String) : pgnLogPath j ≠ eloCsvPath i := by
  apply string_append_ne_of_ne (a := pgnLogDir) (b := eloCsvDir) (by decide) (by decide)

theorem pgnLogPath_ne_pgnCsvPath (j i : String) : pgnLogPath j ≠ pgnCsvPath i := by
  apply string_append_ne_of_ne (a := pgnLogDir) (b := pgnCsvDir) (by decide) (by decide)

theorem pgnCsvPath_ne_pgnBz2Path (j i : String) : pgnCsvPath j ≠ pgnBz2Path i :=
  (pgnBz2Path_ne_pgnCsvPath i j).symm

theorem pgnLogPath_inj {i j : String} (h : pgnLogPath i = pgnLogPath j) : i = j :=
  string_append_left_cancel h

theorem mem_middle {α : Type} (pre post : List α) (x : α) : x ∈ pre ++ x :: post :=
  List.mem_append.mpr (Or.inr (List.mem_cons_self _ _))

theorem mem_replace_middle {α : Type} {pre post : List α} {t2 x : α}
    (h : x ∈ pre ++ t2 :: post) : x = t2 ∨ x ∈ pre ++ post := by
  rcases List.mem_append.mp h with h | h
  · exact Or.inr (List.mem_append.mpr (Or.inl h))
  · rcases List.mem_cons.mp h with h | h
    · exact Or.inl h
    · exact Or.inr (List.mem_append.mpr (Or.inr h))

theorem mem_middle_of_mem_parts {α : Type} {pre post : List α} {x : α} (t2 : α)
    (h : x ∈ pre ++ post) : x ∈ pre ++ t2 :: post := by
  rcases List.mem_append.mp h with h | h
  · exact List.mem_append.mpr (Or.inl h)
  · exact List.mem_append.mpr (Or.inr (List.mem_cons_of_mem _ h))

theorem initCreate_spec (bz2A eloA logA : String → Bool) :
    ∀ (L : List String) (acc : InitAcc),
      L.Nodup →
      (∀ i ∈ acc.eloPend, i ∉ L) → (∀ i ∈ acc.pgnPend, i ∉ L) →
      acc.eloPend.Nodup → acc.pgnPend.Nodup →
      (∀ i ∈ acc.eloPend, acc.eloNeed i = false ∧ eloA i = false) →
      (∀ i ∈ acc.pgnPend, acc.pgnNeed i = false ∧ eloA i = true) →
      (initCreate bz2A eloA logA L acc).eloPend.Nodup ∧
      (initCreate bz2A eloA logA L acc).pgnPend.Nodup ∧
      (∀ i ∈ (initCreate bz2A eloA logA L acc).eloPend,
        (initCreate bz2A eloA logA L acc).eloNeed i = false ∧ eloA i = false ∧
        (i ∈ acc.eloPend ∨ i ∈ L)) ∧
      (∀ i ∈ (initCreate bz2A eloA logA L acc).pgnPend,
        (initCreate bz2A eloA logA L acc).pgnNeed i = false ∧ eloA i = true ∧
        (i ∈ acc.pgnPend ∨ i ∈ L)) := by
  intro L
  induction L with
  | nil =>
    intro acc _ _ _ hne hnp he hp
    refine ⟨hne, hnp, ?_, ?_⟩
    · intro i hi
      exact ⟨(he i hi).1, (he i hi).2, Or.inl hi⟩
    · intro i hi
      exact ⟨(hp i hi).1, (hp i hi).2, Or.inl hi⟩
  | cons a rest ih =>
    intro acc hnodup hEL hPL hne hnp he hp
    have hnd := List.nodup_cons.mp hnodup
    by_cases h1 : (bz2A a && !eloA a) = true
    · have heA : eloA a = false := by
        have := (Bool.and_eq_true _ _).mp h1
        simpa using this.2
      have haE : a ∉ acc.eloPend := fun hmem => hEL a hmem (List.mem_cons_self _ _)
      simp only [initCreate, if_pos h1]
      have hres := ih ⟨fupd acc.eloNeed a false, acc.pgnNeed,
          acc.eloPend ++ [a], acc.pgnPend⟩ hnd.2
        (by
          intro i hi
          rcases List.mem_append.mp hi with h2 | h2
          · exact fun h3 => hEL i h2 (List.mem_cons_of_mem _ h3)
          · simp only [List.mem_singleton] at h2
            subst h2
            exact hnd.1)
        (fun i hi h2 => hPL i hi (List.mem_cons_of_mem _ h2))
        (by
          rw [List.nodup_append]
          exact ⟨hne, List.nodup_singleton a, by simpa using haE⟩)
        hnp
        (by
          intro i hi
          rcases List.mem_append.mp hi with h2 | h2
          · have hne2 : i ≠ a := fun h3 => haE (h3 ▸ h2)
            refine ⟨?_, (he i h2).2⟩
            show fupd acc.eloNeed a false i = false
            rw [fupd_other _ hne2]
            exact (he i h2).1
          · simp only [List.mem_singleton] at h2
            subst h2
            exact ⟨fupd_same _ _ _, heA⟩)
        hp
      refine ⟨hres.1, hres.2.1, ?_, ?_⟩
      · intro i hi
        obtain ⟨hn, ha, hm⟩ := hres.2.2.1 i hi
        refine ⟨hn, ha, ?_⟩
        rcases hm with h2 | h2
        · rcases List.mem_append.mp h2 with h3 | h3
          · exact Or.inl h3
          · simp only [List.mem_singleton] at h3
            exact Or.inr (h3 ▸ List.mem_cons_self _ _)
        · exact Or.inr (List.mem_cons_of_mem _ h2)
      · intro i hi
        obtain ⟨hn, ha, hm⟩ := hres.2.2.2 i hi
        exact ⟨hn, ha, hm.imp id (List.mem_cons_of_mem _)⟩
    · by_cases h2 : (bz2A a && eloA a && !logA a) = true
      · have heA : eloA a = true := by
          have h3 := (Bool.and_eq_true _ _).mp h2
          exact ((Bool.and_eq_true _ _).mp h3.1).2
        have haP : a ∉ acc.pgnPend := fun hmem => hPL a hmem (List.mem_cons_self _ _)
        simp only [initCreate, if_neg h1, if_pos h2]
        have hres := ih ⟨acc.eloNeed, fupd acc.pgnNeed a false,
            acc.eloPend, acc.pgnPend ++ [a]⟩ hnd.2
          (fun i hi h3 => hEL i hi (List.mem_cons_of_mem _ h3))
          (by
            intro i hi
            rcases List.mem_append.mp hi with h3 | h3
            · exact fun h4 => hPL i h3 (List.mem_cons_of_mem _ h4)
            · simp only [List.mem_singleton] at h3
              subst h3
              exact hnd.1)
          hne
          (by
            rw [List.nodup_append]
            exact ⟨hnp, List.nodup_singleton a, by simpa using haP⟩)
          he
          (by
            intro i hi
            rcases List.mem_append.mp hi with h3 | h3
            · have hne2 : i ≠ a := fun h4 => haP (h4 ▸ h3)
              refine ⟨?_, (hp i h3).2⟩
              show fupd acc.pgnNeed a false i = false
              rw [fupd_other _ hne2]
              exact (hp i h3).1
            · simp only [List.mem_singleton] at h3
              subst h3
              exact ⟨fupd_same _ _ _, heA⟩)
        refine ⟨hres.1, hres.2.1, ?_, ?_⟩
        · intro i hi
          obtain ⟨hn, ha, hm⟩ := hres.2.2.1 i hi
          exact ⟨hn, ha, hm.imp id (List.mem_cons_of_mem _)⟩
        · intro i hi
          obtain ⟨hn, ha, hm⟩ := hres.2.2.2 i hi
          refine ⟨hn, ha, ?_⟩
          rcases hm with h3 | h3
          · rcases List.mem_append.mp h3 with h4 | h4
            · exact Or.inl h4
            · simp only [List.mem_singleton] at h4
              exact Or.inr (h4 ▸ List.mem_cons_self _ _)
          · exact Or.inr (List.mem_cons_of_mem _ h3)
      · simp only [initCreate, if_neg h1, if_neg h2]
        have hres := ih acc hnd.2
          (fun i hi h3 => hEL i hi (List.mem_cons_of_mem _ h3))
          (fun i hi h3 => hPL i hi (List.mem_cons_of_mem _ h3))
          hne hnp he hp
        refine ⟨hres.1, hres.2.1, ?_, ?_⟩
        · intro i hi
          obtain ⟨hn, ha, hm⟩ := hres.2.2.1 i hi
          exact ⟨hn, ha, hm.imp id (List.mem_cons_of_mem _)⟩
        · intro i hi
          obtain ⟨hn, ha, hm⟩ := hres.2.2.2 i hi
          exact ⟨hn, ha, hm.imp id (List.mem_cons_of_mem _)⟩

theorem schedInv_init (P : InitParams) (G : GoodParams P) : SchedInv P (initState P) := by
  have hspec := initCreate_spec (initBz2Avail P) (initEloAvail P) (initLogAvail P) P.ids
    ⟨fun i => !(initEloAvail P i), fun i => !(initLogAvail P i), [], []⟩
    G.nodup (by simp) (by simp) List.nodup_nil List.nodup_nil (by simp) (by simp)
  refine
    { ids_eq := rfl
      threads_eq := rfl
      run_bound := by simp [initState]
      run_ids := by simp [initState]
      logA_file := ?_
      log_table := ?_
      pgn_pc_table := by simp [initState]
      no_stray := ?_
      eloA_eq := fun i _ => rfl
      needE := ?_
      needP := ?_
      countE := ?_
      countP := ?_
      eloSide := ?_
      pgnSide := ?_
      unlinked_elo := by simp [initState] }
  · intro i _ h
    exact of_decide_eq_true h
  · intro i hi h
    exact G.logTable i hi h
  · intro i hi
    exact G.noStray i hi
  · intro i hm
    rcases hm with hm | hm
    · exact (hspec.2.2.1 i hm).1
    · simp [initState] at hm
  · intro i hm
    rcases hm with hm | hm
    · exact (hspec.2.2.2 i hm).1
    · simp [initState] at hm
  · intro i
    have : (initState P).startedElo = [] := rfl
    rw [this, List.append_nil]
    exact List.nodup_iff_count_le_one.mp hspec.1 i
  · intro i
    have : (initState P).startedPgn = [] := rfl
    rw [this, List.append_nil]
    exact List.nodup_iff_count_le_one.mp hspec.2.1 i
  · intro i hm
    rcases hm with hm | hm
    · obtain ⟨_, ha, hm2⟩ := hspec.2.2.1 i hm
      rcases hm2 with h2 | h2
      · simp at h2
      · exact ⟨h2, ha⟩
    · simp [initState] at hm
  · intro i hm
    rcases hm with hm | hm
    · obtain ⟨_, ha, hm2⟩ := hspec.2.2.2 i hm
      rcases hm2 with h2 | h2
      · simp at h2
      · exact ⟨h2, ha⟩
    · simp [initState] at hm

theorem mem_fsAdd_of_mem {fs : List String} {p a : String} (h : a ∈ fs) :
    a ∈ fsAdd fs p := (mem_fsAdd fs p a).mpr (Or.inl h)

theorem self_mem_fsAdd (fs : List String) (p : String) : p ∈ fsAdd fs p :=
  (mem_fsAdd fs p p).mpr (Or.inr rfl)

theorem mem_of_mem_fsAdd_ne {fs : List String} {p a : String} (h : a ∈ fsAdd fs p)
    (hne : a ≠ p) : a ∈ fs := by
  rcases (mem_fsAdd fs p a).mp h with h2 | h2
  · exact h2
  · exact absurd h2 hne

theorem schedInv_rescan (P : InitParams) {s : SchedState}
    (inv : SchedInv P s) {i : String} (hid : i ∈ s.ids) :
    SchedInv P (rescanOne s i) := by
  have hidP : i ∈ P.ids := inv.ids_eq ▸ hid
  have hscanElo : scanElo s i = s.eloAvail i := by
    have h := decide_eq_false (inv.no_stray i hidP)
    simp [scanElo, h]
  have hkeepLog : ∀ j, pgnLogPath j ∈ s.fs → pgnLogPath j ∈ (rescanOne s i).fs := by
    intro j h
    show pgnLogPath j ∈ (if doUnlinkB s i then fsDel s.fs (pgnBz2Path i) else s.fs)
    split
    · exact (mem_fsDel _ _ _).mpr ⟨h, (pgnBz2Path_ne_pgnLogPath i j).symm⟩
    · exact h
  have hkeepCsv : ∀ j, pgnCsvPath j ∈ s.fs → pgnCsvPath j ∈ (rescanOne s i).fs := by
    intro j h
    show pgnCsvPath j ∈ (if doUnlinkB s i then fsDel s.fs (pgnBz2Path i) else s.fs)
    split
    · exact (mem_fsDel _ _ _).mpr ⟨h, pgnCsvPath_ne_pgnBz2Path j i⟩
    · exact h
  have hfsSub : ∀ q, q ∈ (rescanOne s i).fs → q ∈ s.fs := by
    intro q h
    have h2 : q ∈ (if doUnlinkB s i then fsDel s.fs (pgnBz2Path i) else s.fs) := h
    by_cases h3 : doUnlinkB s i = true
    · rw [if_pos h3] at h2
      exact ((mem_fsDel _ _ _).mp h2).1
    · rwa [if_neg h3] at h2
  refine
    { ids_eq := inv.ids_eq
      threads_eq := inv.threads_eq
      run_bound := inv.run_bound
      run_ids := inv.run_ids
      logA_file := ?_
      log_table := ?_
      pgn_pc_table := fun t ht hk hpc => hkeepCsv _ (inv.pgn_pc_table t ht hk hpc)
      no_stray := fun j hj h => inv.no_stray j hj (hfsSub _ h)
      eloA_eq := ?_
      needE := ?_
      needP := ?_
      countE := ?_
      countP := ?_
      eloSide := ?_
      pgnSide := ?_
      unlinked_elo := ?_ }
  · -- logA_file
    intro j hj hflag
    have hflag2 : fupd s.logAvail i (scanLog s i) j = true := hflag
    by_cases hji : j = i
    · subst hji
      rw [fupd_same] at hflag2
      rcases Bool.or_eq_true _ _ ▸ hflag2 with h2 | h2
      · exact hkeepLog j (inv.logA_file j hj h2)
      · exact hkeepLog j (of_decide_eq_true h2)
    · rw [fupd_other _ hji] at hflag2
      exact hkeepLog j (inv.logA_file j hj hflag2)
  · -- log_table
    intro j hj hmem
    exact hkeepCsv j (inv.log_table j hj (hfsSub _ hmem))
  · -- eloA_eq
    intro j hj
    show fupd s.eloAvail i (scanElo s i) j = initEloAvail P j
    by_cases hji : j = i
    · subst hji
      rw [fupd_same, hscanElo]
      exact inv.eloA_eq j hj
    · rw [fupd_other _ hji]
      exact inv.eloA_eq j hj
  · -- needE
    intro j hm
    by_cases hmE : makeEloB s i = true
    · have hm2 : (j ∈ s.eloPend ++ [i] ∨ j ∈ s.startedElo) := by
        simpa [rescanOne, hmE] using hm
      show (if makeEloB s i then fupd s.eloNeed i false else s.eloNeed) j = false
      rw [if_pos hmE]
      by_cases hji : j = i
      · subst hji; rw [fupd_same]
      · rw [fupd_other _ hji]
        apply inv.needE
        rcases hm2 with h2 | h2
        · rcases List.mem_append.mp h2 with h3 | h3
          · exact Or.inl h3
          · simp only [List.mem_singleton] at h3
            exact absurd h3 hji
        · exact Or.inr h2
    · have hm2 : (j ∈ s.eloPend ∨ j ∈ s.startedElo) := by
        simpa [rescanOne, hmE] using hm
      show (if makeEloB s i then fupd s.eloNeed i false else s.eloNeed) j = false
      rw [if_neg hmE]
      exact inv.needE j hm2
  · -- needP
    intro j hm
    by_cases hmP : makePgnB s i = true
    · have hm2 : (j ∈ s.pgnPend ++ [i] ∨ j ∈ s.startedPgn) := by
        simpa [rescanOne, hmP] using hm
      show (if makePgnB s i then fupd s.pgnNeed i false else s.pgnNeed) j = false
      rw [if_pos hmP]
      by_cases hji : j = i
      · subst hji; rw [fupd_same]
      · rw [fupd_other _ hji]
        apply inv.needP
        rcases hm2 with h2 | h2
        · rcases List.mem_append.mp h2 with h3 | h3
          · exact Or.inl h3
          · simp only [List.mem_singleton] at h3
            exact absurd h3 hji
        · exact Or.inr h2
    · have hm2 : (j ∈ s.pgnPend ∨ j ∈ s.startedPgn) := by
        simpa [rescanOne, hmP] using hm
      show (if makePgnB s i then fupd s.pgnNeed i false else s.pgnNeed) j = false
      rw [if_neg hmP]
      exact inv.needP j hm2
  · -- countE
    intro j
    by_cases hmE : makeEloB s i = true
    · have hneed : s.eloNeed i = true := by
        have h2 := (Bool.and_eq_true _ _).mp hmE
        exact h2.2
      have hnm : ¬ (i ∈ s.eloPend ∨ i ∈ s.startedElo) := by
        intro h2
        rw [inv.needE i h2] at hneed
        exact Bool.false_ne_true hneed
      have hc :
          ((rescanOne s i).eloPend ++ (rescanOne s i).startedElo).count j =
            ((s.eloPend ++ [i]) ++ s.startedElo).count j := by
        simp [rescanOne, hmE]
      rw [hc]
      by_cases hji : j = i
      · subst hji
        have h1 : s.eloPend.count j = 0 :=
          List.count_eq_zero.mpr (fun h2 => hnm (Or.inl h2))
        have h2 : s.startedElo.count j = 0 :=
          List.count_eq_zero.mpr (fun h2 => hnm (Or.inr h2))
        simp [List.count_append, h1, h2]
      · have h3 : ([i] : List String).count j = 0 :=
          List.count_eq_zero.mpr (by simpa using hji)
        have h0 := inv.countE j
        simp only [List.count_append] at h0 ⊢
        omega
    · have hc :
          ((rescanOne s i).eloPend ++ (rescanOne s i).startedElo).count j =
            (s.eloPend ++ s.startedElo).count j := by
        simp [rescanOne, hmE]
      rw [hc]
      exact inv.countE j
  · -- countP
    intro j
    by_cases hmP : makePgnB s i = true
    · have hneed : s.pgnNeed i = true := by
        have h2 := (Bool.and_eq_true _ _).mp hmP
        exact h2.2
      have hnm : ¬ (i ∈ s.pgnPend ∨ i ∈ s.startedPgn) := by
        intro h2
        rw [inv.needP i h2] at hneed
        exact Bool.false_ne_true hneed
      have hc :
          ((rescanOne s i).pgnPend ++ (rescanOne s i).startedPgn).count j =
            ((s.pgnPend ++ [i]) ++ s.startedPgn).count j := by
        simp [rescanOne, hmP]
      rw [hc]
      by_cases hji : j = i
      · subst hji
        have h1 : s.pgnPend.count j = 0 :=
          List.count_eq_zero.mpr (fun h2 => hnm (Or.inl h2))
        have h2 : s.startedPgn.count j = 0 :=
          List.count_eq_zero.mpr (fun h2 => hnm (Or.inr h2))
        simp [List.count_append, h1, h2]
      · have h3 : ([i] : List String).count j = 0 :=
          List.count_eq_zero.mpr (by simpa using hji)
        have h0 := inv.countP j
        simp only [List.count_append] at h0 ⊢
        omega
    · have hc :
          ((rescanOne s i).pgnPend ++ (rescanOne s i).startedPgn).count j =
            (s.pgnPend ++ s.startedPgn).count j := by
        simp [rescanOne, hmP]
      rw [hc]
      exact inv.countP j
  · -- eloSide
    intro j hm
    by_cases hmE : makeEloB s i = true
    · have hm2 : (j ∈ s.eloPend ++ [i] ∨ j ∈ s.startedElo) := by
        simpa [rescanOne, hmE] using hm
      have hEloFalse : scanElo s i = false := by
        have h2 := (Bool.and_eq_true _ _).mp ((Bool.and_eq_true _ _).mp hmE).1
        simpa using h2.2
      rcases hm2 with h2 | h2
      · rcases List.mem_append.mp h2 with h3 | h3
        · exact inv.eloSide j (Or.inl h3)
        · simp only [List.mem_singleton] at h3
          rw [h3]
          refine ⟨hidP, ?_⟩
          rw [← inv.eloA_eq i hidP, ← hscanElo]
          exact hEloFalse
      · exact inv.eloSide j (Or.inr h2)
    · have hm2 : (j ∈ s.eloPend ∨ j ∈ s.startedElo) := by
        simpa [rescanOne, hmE] using hm
      exact inv.eloSide j hm2
  · -- pgnSide
    intro j hm
    by_cases hmP : makePgnB s i = true
    · have hm2 : (j ∈ s.pgnPend ++ [i] ∨ j ∈ s.startedPgn) := by
        simpa [rescanOne, hmP] using hm
      have hEloTrue : scanElo s i = true := by
        have h2 := (Bool.and_eq_true _ _).mp
          ((Bool.and_eq_true _ _).mp ((Bool.and_eq_true _ _).mp hmP).1).1
        exact h2.2
      rcases hm2 with h2 | h2
      · rcases List.mem_append.mp h2 with h3 | h3
        · exact inv.pgnSide j (Or.inl h3)
        · simp only [List.mem_singleton] at h3
          rw [h3]
          refine ⟨hidP, ?_⟩
          rw [← inv.eloA_eq i hidP, ← hscanElo]
          exact hEloTrue
      · exact inv.pgnSide j (Or.inr h2)
    · have hm2 : (j ∈ s.pgnPend ∨ j ∈ s.startedPgn) := by
        simpa [rescanOne, hmP] using hm
      exact inv.pgnSide j hm2
  · -- unlinked_elo
    intro j hm
    by_cases hU : doUnlinkB s i = true
    · have hm2 : j ∈ s.unlinked ++ [i] := by
        simpa [rescanOne, hU] using hm
      rcases List.mem_append.mp hm2 with h2 | h2
      · exact inv.unlinked_elo j h2
      · simp only [List.mem_singleton] at h2
        rw [h2]
        have hEloTrue : scanElo s i = true := by
          have h3 := (Bool.and_eq_true _ _).mp ((Bool.and_eq_true _ _).mp hU).1
          exact h3.2
        refine ⟨hidP, ?_⟩
        rw [← inv.eloA_eq i hidP, ← hscanElo]
        exact hEloTrue
    · have hm2 : j ∈ s.unlinked := by
        simpa [rescanOne, hU] using hm
      exact inv.unlinked_elo j hm2

theorem schedInv_step (P : InitParams) (G : GoodParams P) {s s2 : SchedState}
    (inv : SchedInv P s) (st : SchedStep s s2) : SchedInv P s2 := by
  cases st with
  | reap pre post t hrun hdead =>
    have hsub : ∀ x ∈ pre ++ post, x ∈ s.running := by
      intro x hx
      rw [hrun]
      exact mem_middle_of_mem_parts t hx
    refine
      { ids_eq := inv.ids_eq
        threads_eq := inv.threads_eq
        run_bound := ?_
        run_ids := fun x hx => inv.run_ids x (hsub x hx)
        logA_file := inv.logA_file
        log_table := inv.log_table
        pgn_pc_table := fun x hx hk hpc => inv.pgn_pc_table x (hsub x hx) hk hpc
        no_stray := inv.no_stray
        eloA_eq := inv.eloA_eq
        needE := inv.needE
        needP := inv.needP
        countE := inv.countE
        countP := inv.countP
        eloSide := inv.eloSide
        pgnSide := inv.pgnSide
        unlinked_elo := inv.unlinked_elo }
    have hb := inv.run_bound
    rw [hrun] at hb
    simp only [List.length_append, List.length_cons] at hb ⊢
    omega
  | startElo i rest hcap hpend =>
    have hiPend : i ∈ s.eloPend := by rw [hpend]; exact List.mem_cons_self _ _
    refine
      { ids_eq := inv.ids_eq
        threads_eq := inv.threads_eq
        run_bound := ?_
        run_ids := ?_
        logA_file := inv.logA_file
        log_table := inv.log_table
        pgn_pc_table := ?_
        no_stray := inv.no_stray
        eloA_eq := inv.eloA_eq
        needE := ?_
        needP := inv.needP
        countE := ?_
        countP := inv.countP
        eloSide := ?_
        pgnSide := inv.pgnSide
        unlinked_elo := inv.unlinked_elo }
    · simp only [List.length_append, List.length_cons, List.length_nil]
      omega
    · intro x hx
      rcases List.mem_append.mp hx with h2 | h2
      · exact inv.run_ids x h2
      · simp only [List.mem_singleton] at h2
        rw [h2]
        exact (inv.eloSide i (Or.inl hiPend)).1
    · intro x hx hk hpc
      rcases List.mem_append.mp hx with h2 | h2
      · exact inv.pgn_pc_table x h2 hk hpc
      · simp only [List.mem_singleton] at h2
        rw [h2] at hk
        simp at hk
    · intro j hm
      apply inv.needE
      rcases hm with h2 | h2
      · exact Or.inl (by rw [hpend]; exact List.mem_cons_of_mem _ h2)
      · rcases List.mem_append.mp h2 with h3 | h3
        · exact Or.inr h3
        · simp only [List.mem_singleton] at h3
          exact Or.inl (h3 ▸ hiPend)
    · intro j
      have h0 := inv.countE j
      rw [hpend] at h0
      simp only [List.count_append, List.count_cons, List.count_nil] at h0 ⊢
      omega
    · intro j hm
      apply inv.eloSide
      rcases hm with h2 | h2
      · exact Or.inl (by rw [hpend]; exact List.mem_cons_of_mem _ h2)
      · rcases List.mem_append.mp h2 with h3 | h3
        · exact Or.inr h3
        · simp only [List.mem_singleton] at h3
          exact Or.inl (h3 ▸ hiPend)
  | startPgn i rest hcap helo hpend =>
    have hiPend : i ∈ s.pgnPend := by rw [hpend]; exact List.mem_cons_self _ _
    refine
      { ids_eq := inv.ids_eq
        threads_eq := inv.threads_eq
        run_bound := ?_
        run_ids := ?_
        logA_file := inv.logA_file
        log_table := inv.log_table
        pgn_pc_table := ?_
        no_stray := inv.no_stray
        eloA_eq := inv.eloA_eq
        needE := inv.needE
        needP := ?_
        countE := inv.countE
        countP := ?_
        eloSide := inv.eloSide
        pgnSide := ?_
        unlinked_elo := inv.unlinked_elo }
    · simp only [List.length_append, List.length_cons, List.length_nil]
      omega
    · intro x hx
      rcases List.mem_append.mp hx with h2 | h2
      · exact inv.run_ids x h2
      · simp only [List.mem_singleton] at h2
        rw [h2]
        exact (inv.pgnSide i (Or.inl hiPend)).1
    · intro x hx hk hpc
      rcases List.mem_append.mp hx with h2 | h2
      · exact inv.pgn_pc_table x h2 hk hpc
      · simp only [List.mem_singleton] at h2
        rw [h2] at hpc
        simp at hpc
    · intro j hm
      apply inv.needP
      rcases hm with h2 | h2
      · exact Or.inl (by rw [hpend]; exact List.mem_cons_of_mem _ h2)
      · rcases List.mem_append.mp h2 with h3 | h3
        · exact Or.inr h3
        · simp only [List.mem_singleton] at h3
          exact Or.inl (h3 ▸ hiPend)
    · intro j
      have h0 := inv.countP j
      rw [hpend] at h0
      simp only [List.count_append, List.count_cons, List.count_nil] at h0 ⊢
      omega
    · intro j hm
      apply inv.pgnSide
      rcases hm with h2 | h2
      · exact Or.inl (by rw [hpend]; exact List.mem_cons_of_mem _ h2)
      · rcases List.mem_append.mp h2 with h3 | h3
        · exact Or.inr h3
        · simp only [List.mem_singleton] at h3
          exact Or.inl (h3 ▸ hiPend)
  | rescan i hid => exact schedInv_rescan P inv hid
  | download i hid =>
    refine
      { ids_eq := inv.ids_eq
        threads_eq := inv.threads_eq
        run_bound := inv.run_bound
        run_ids := inv.run_ids
        logA_file := fun j hj h => mem_fsAdd_of_mem (inv.logA_file j hj h)
        log_table := ?_
        pgn_pc_table := fun t ht hk hpc => mem_fsAdd_of_mem (inv.pgn_pc_table t ht hk hpc)
        no_stray := ?_
        eloA_eq := inv.eloA_eq
        needE := inv.needE
        needP := inv.needP
        countE := inv.countE
        countP := inv.countP
        eloSide := inv.eloSide
        pgnSide := inv.pgnSide
        unlinked_elo := inv.unlinked_elo }
    · intro j hj hmem
      have h2 : pgnLogPath j ∈ s.fs :=
        mem_of_mem_fsAdd_ne hmem ((pgnBz2Path_ne_pgnLogPath i j).symm)
      exact mem_fsAdd_of_mem (inv.log_table j hj h2)
    · intro j hj hmem
      exact inv.no_stray j hj (mem_of_mem_fsAdd_ne hmem (eloRescanPath_ne_pgnBz2Path j i))
  | workEloWrite pre post t hrun hkind hpc halive =>
    have htmem : t ∈ s.running := by rw [hrun]; exact mem_middle pre post t
    have htid : t.tid ∈ P.ids := inv.run_ids t htmem
    refine
      { ids_eq := inv.ids_eq
        threads_eq := inv.threads_eq
        run_bound := ?_
        run_ids := ?_
        logA_file := fun j hj h => mem_fsAdd_of_mem (inv.logA_file j hj h)
        log_table := ?_
        pgn_pc_table := ?_
        no_stray := ?_
        eloA_eq := inv.eloA_eq
        needE := inv.needE
        needP := inv.needP
        countE := inv.countE
        countP := inv.countP
        eloSide := inv.eloSide
        pgnSide := inv.pgnSide
        unlinked_elo := inv.unlinked_elo }
    · have hb := inv.run_bound
      rw [hrun] at hb
      simp only [List.length_append, List.length_cons] at hb ⊢
      omega
    · intro x hx
      rcases mem_replace_middle hx with h2 | h2
      · rw [h2]
        exact htid
      · exact inv.run_ids x (by rw [hrun]; exact mem_middle_of_mem_parts t h2)
    · intro j hj hmem
      have h2 : pgnLogPath j ∈ s.fs :=
        mem_of_mem_fsAdd_ne hmem (pgnLogPath_ne_eloCsvPath j t.tid)
      exact mem_fsAdd_of_mem (inv.log_table j hj h2)
    · intro x hx hk hpc2
      rcases mem_replace_middle hx with h2 | h2
      · rw [h2] at hk
        simp at hk
      · exact mem_fsAdd_of_mem
          (inv.pgn_pc_table x (by rw [hrun]; exact mem_middle_of_mem_parts t h2) hk hpc2)
    · intro j hj hmem
      have hlen : j.length ≤ 7 := G.idLen j hj
      exact inv.no_stray j hj
        (mem_of_mem_fsAdd_ne hmem (eloRescanPath_ne_eloCsvPath hlen t.tid))
  | workPgnTable pre post t hrun hkind hpc halive =>
    have htmem : t ∈ s.running := by rw [hrun]; exact mem_middle pre post t
    have htid : t.tid ∈ P.ids := inv.run_ids t htmem
    refine
      { ids_eq := inv.ids_eq
        threads_eq := inv.threads_eq
        run_bound := ?_
        run_ids := ?_
        logA_file := fun j hj h => mem_fsAdd_of_mem (inv.logA_file j hj h)
        log_table := ?_
        pgn_pc_table := ?_
        no_stray := ?_
        eloA_eq := inv.eloA_eq
        needE := inv.needE
        needP := inv.needP
        countE := inv.countE
        countP := inv.countP
        eloSide := inv.eloSide
        pgnSide := inv.pgnSide
        unlinked_elo := inv.unlinked_elo }
    · have hb := inv.run_bound
      rw [hrun] at hb
      simp only [List.length_append, List.length_cons] at hb ⊢
      omega
    · intro x hx
      rcases mem_replace_middle hx with h2 | h2
      · rw [h2]
        exact htid
      · exact inv.run_ids x (by rw [hrun]; exact mem_middle_of_mem_parts t h2)
    · intro j hj hmem
      have h2 : pgnLogPath j ∈ s.fs :=
        mem_of_mem_fsAdd_ne hmem (pgnLogPath_ne_pgnCsvPath j t.tid)
      exact mem_fsAdd_of_mem (inv.log_table j hj h2)
    · intro x hx hk hpc2
      rcases mem_replace_middle hx with h2 | h2
      · rw [h2]
        exact self_mem_fsAdd s.fs _
      · exact mem_fsAdd_of_mem
          (inv.pgn_pc_table x (by rw [hrun]; exact mem_middle_of_mem_parts t h2) hk hpc2)
    · intro j hj hmem
      exact inv.no_stray j hj
        (mem_of_mem_fsAdd_ne hmem (eloRescanPath_ne_pgnCsvPath j t.tid))
  | workPgnLog pre post t hrun hkind hpc halive =>
    have htmem : t ∈ s.running := by rw [hrun]; exact mem_middle pre post t
    have htid : t.tid ∈ P.ids := inv.run_ids t htmem
    have htable : pgnCsvPath t.tid ∈ s.fs :=
      inv.pgn_pc_table t htmem hkind (by omega)
    refine
      { ids_eq := inv.ids_eq
        threads_eq := inv.threads_eq
        run_bound := ?_
        run_ids := ?_
        logA_file := fun j hj h => mem_fsAdd_of_mem (inv.logA_file j hj h)
        log_table := ?_
        pgn_pc_table := ?_
        no_stray := ?_
        eloA_eq := inv.eloA_eq
        needE := inv.needE
        needP := inv.needP
        countE := inv.countE
        countP := inv.countP
        eloSide := inv.eloSide
        pgnSide := inv.pgnSide
        unlinked_elo := inv.unlinked_elo }
    · have hb := inv.run_bound
      rw [hrun] at hb
      simp only [List.length_append, List.length_cons] at hb ⊢
      omega
    · intro x hx
      rcases mem_replace_middle hx with h2 | h2
      · rw [h2]
        exact htid
      · exact inv.run_ids x (by rw [hrun]; exact mem_middle_of_mem_parts t h2)
    · intro j hj hmem
      by_cases hje : pgnLogPath j = pgnLogPath t.tid
      · rw [pgnLogPath_inj hje]
        exact mem_fsAdd_of_mem htable
      · exact mem_fsAdd_of_mem (inv.log_table j hj (mem_of_mem_fsAdd_ne hmem hje))
    · intro x hx hk hpc2
      rcases mem_replace_middle hx with h2 | h2
      · rw [h2]
        exact mem_fsAdd_of_mem htable
      · exact mem_fsAdd_of_mem
          (inv.pgn_pc_table x (by rw [hrun]; exact mem_middle_of_mem_parts t h2) hk hpc2)
    · intro j hj hmem
      exact inv.no_stray j hj
        (mem_of_mem_fsAdd_ne hmem (eloRescanPath_ne_pgnLogPath j t.tid))
  | crash pre post t hrun halive =>
    have htmem : t ∈ s.running := by rw [hrun]; exact mem_middle pre post t
    refine
      { ids_eq := inv.ids_eq
        threads_eq := inv.threads_eq
        run_bound := ?_
        run_ids := ?_
        logA_file := inv.logA_file
        log_table := inv.log_table
        pgn_pc_table := ?_
        no_stray := inv.no_stray
        eloA_eq := inv.eloA_eq
        needE := inv.needE
        needP := inv.needP
        countE := inv.countE
        countP := inv.countP
        eloSide := inv.eloSide
        pgnSide := inv.pgnSide
        unlinked_elo := inv.unlinked_elo }
    · have hb := inv.run_bound
      rw [hrun] at hb
      simp only [List.length_append, List.length_cons] at hb ⊢
      omega
    · intro x hx
      rcases mem_replace_middle hx with h2 | h2
      · rw [h2]
        exact inv.run_ids t htmem
      · exact inv.run_ids x (by rw [hrun]; exact mem_middle_of_mem_parts t h2)
    · intro x hx hk hpc2
      rcases mem_replace_middle hx with h2 | h2
      · rw [h2] at hk hpc2 ⊢
        exact inv.pgn_pc_table t htmem hk hpc2
      · exact inv.pgn_pc_table x (by rw [hrun]; exact mem_middle_of_mem_parts t h2) hk hpc2

/-- Every reachable state of the scheduler loop satisfies the invariant. -/
theorem schedInv_reach (P : InitParams) (G : GoodParams P) {s : SchedState}
    (hr : SchedReach P s) : SchedInv P s := by
  induction hr with
  | init => exact schedInv_init P G
  | step _ st ih => exact schedInv_step P G ih st

theorem pass2_fold_fst (sim : String → List String) (ord : List String → List String)
    (min_elo : Nat) (lines : List String) :
    ∀ st : (Nat × Nat) × List (String × Nat),
      (lines.foldl (pass2Step sim ord min_elo) st).1 =
        lines.foldl (fun e l => update_game_elos l e) st.1 := by
  induction lines with
  | nil => intro st; rfl
  | cons l rest ih =>
    intro st
    simp only [List.foldl_cons, pass2Step]
    split
    · exact ih _
    · exact ih _

/-! ## Claim theorems

Each claim of the specification audit is settled by exactly one theorem
below (plus a witness or counterexample where required). -/

/-- C1 (counterexample): on the spec's example histogram `{2500:1, 2000:2,
1200:3}` with inverse-share 2 and archive total 6, the code's threshold is
2000 — the first rating reached in the descending iteration whose cumulative
count times 2 meets 6 — while the smallest rating whose cumulative count
times 2 is at least 6 is 1200.  The claim's "smallest rating" clause
therefore contradicts the code (and the claim's own general rule). -/
theorem threshold_smallest_counterexample :
    computeMinElo [(2500, 1), (2000, 2), (1200, 3)] 2 6 = 2000 ∧
    satisfyingElos [(2500, 1), (2000, 2), (1200, 3)] 2 6 = [2000, 1200] ∧
    leastD (satisfyingElos [(2500, 1), (2000, 2), (1200, 3)] 2 6) 0 = 1200 ∧
    computeMinElo [(2500, 1), (2000, 2), (1200, 3)] 2 6 ≠
      leastD (satisfyingElos [(2500, 1), (2000, 2), (1200, 3)] 2 6) 0 :=
  ⟨by decide, by decide, by decide, by decide⟩

/-- C1 (amended): for every histogram, inverse-share factor and archive
total, the threshold is the spec's descending scan — the first rating value,
iterating keys in descending order while accumulating a running count, whose
running count times the inverse-share factor reaches the total; with
distinct histogram keys it falls back to 0 whenever even the grand total of
bucket counts scaled by the factor misses the bound; and on the example
histogram with inverse-share 2 and total 6 it equals 2000 (the greatest
satisfying rating, not the smallest), falling back to 0 for the unreachable
total 100. -/
theorem threshold_descending_scan (hist : List (Nat × Nat)) (isf total : Nat) :
    computeMinElo hist isf total = specThreshold hist isf total ∧
    ((ddKeys hist).Nodup → (hist.map Prod.snd).sum * isf < total →
      computeMinElo hist isf total = 0) ∧
    computeMinElo [(2500, 1), (2000, 2), (1200, 3)] 2 6 = 2000 ∧
    computeMinElo [(2500, 1), (2000, 2), (1200, 3)] 2 100 = 0 :=
  ⟨computeMinElo_eq_specThreshold hist isf total,
   fun hn hlt => computeMinElo_fallback_zero hist isf total hn hlt,
   by decide, by decide⟩

theorem threshold_descending_scan_witness :
    ((ddKeys [(3000, 1), (800, 5)]).Nodup ∧
      ([(3000, 1), (800, 5)].map Prod.snd).sum * 4 < 100) ∧
    computeMinElo [(3000, 1), (800, 5)] 4 100 = 0 ∧
    computeMinElo [(3000, 1), (800, 5)] 4 100 =
      specThreshold [(3000, 1), (800, 5)] 4 100 :=
  ⟨⟨by decide, by decide⟩,
   (threshold_descending_scan [(3000, 1), (800, 5)] 4 100).2.1 (by decide) (by decide),
   (threshold_descending_scan [(3000, 1), (800, 5)] 4 100).1⟩

/-- C2: within one game of pass 2, every distinct board position reached in
the game (the deduplicated board-simulation output, visited in any possible
set-iteration order) increments the global position-frequency table by
exactly one, no matter how often the position recurs in the game. -/
theorem intra_game_dedup (positions ordL : List String)
    (h : ordL.Perm positions.dedup) (d : List (String × Nat)) (p : String) :
    ddGet (processGame ordL d) p = ddGet d p + (if p ∈ positions then 1 else 0) := by
  rw [ddGet_processGame, count_dedup_order positions ordL h]

theorem intra_game_dedup_witness :
    (["b", "a"] : List String).Perm (["a", "b", "a"].dedup) ∧
    ddGet (processGame ["b", "a"] []) "a" =
      ddGet ([] : List (String × Nat)) "a" +
        (if "a" ∈ (["a", "b", "a"] : List String) then 1 else 0) :=
  ⟨by decide, intra_game_dedup ["a", "b", "a"] ["b", "a"] (by decide) [] "a"⟩

/-- C3: in every reachable state of a run — in particular at any crash point
between the two writes of a pgn worker — a pgn worker that has performed its
first write already has its table on disk before the log write can happen,
and the existence of a processing log implies the position-frequency table
exists. -/
theorem log_written_after_table (P : InitParams) (G : GoodParams P) {s : SchedState}
    (hr : SchedReach P s) :
    (∀ t ∈ s.running, t.kind = TaskKind.pgn → 1 ≤ t.pc → pgnCsvPath t.tid ∈ s.fs) ∧
    (∀ i ∈ P.ids, pgnLogPath i ∈ s.fs → pgnCsvPath i ∈ s.fs) :=
  have inv := schedInv_reach P G hr
  ⟨inv.pgn_pc_table, inv.log_table⟩

theorem log_written_after_table_witness :
    pgnCsvPath "2015-03" ∈
      (initState ⟨["2015-03"], 1, fun _ => true,
        [pgnCsvPath "2015-03", pgnLogPath "2015-03"]⟩).fs :=
  (log_written_after_table
      ⟨["2015-03"], 1, fun _ => true, [pgnCsvPath "2015-03", pgnLogPath "2015-03"]⟩
      ⟨by decide, by decide, by decide, by decide⟩ SchedReach.init).2
    "2015-03" (by decide) (by decide)

/-- C4: whenever a step of the scheduler deletes the local archive of a
database id, the processing log and the position-frequency table of that id
both exist at the moment of deletion; deletion never precedes the durable
outputs. -/
theorem unlink_requires_artifacts (P : InitParams) (G : GoodParams P)
    {s s2 : SchedState} (hr : SchedReach P s) (st : SchedStep s s2) (i : String)
    (hpre : pgnBz2Path i ∈ s.fs) (hpost : pgnBz2Path i ∉ s2.fs) :
    pgnLogPath i ∈ s.fs ∧ pgnCsvPath i ∈ s.fs := by
  have inv := schedInv_reach P G hr
  cases st with
  | reap pre post t hrun hdead => exact absurd hpre hpost
  | startElo j rest hcap hpend => exact absurd hpre hpost
  | startPgn j rest hcap helo hpend => exact absurd hpre hpost
  | rescan j hid =>
    have hjP : j ∈ P.ids := inv.ids_eq ▸ hid
    by_cases hU : doUnlinkB s j = true
    · have hfs : (rescanOne s j).fs = fsDel s.fs (pgnBz2Path j) := by
        simp [rescanOne, hU]
      by_cases hij : pgnBz2Path i = pgnBz2Path j
      · have hij2 : i = j := pgnBz2Path_inj hij
        subst hij2
        have hlog : pgnLogPath i ∈ s.fs := by
          have hsl : scanLog s i = true :=
            ((Bool.and_eq_true _ _).mp hU).2
          rcases Bool.or_eq_true _ _ ▸ hsl with h2 | h2
          · exact inv.logA_file i hjP h2
          · exact of_decide_eq_true h2
        exact ⟨hlog, inv.log_table i hjP hlog⟩
      · exfalso
        apply hpost
        rw [hfs]
        exact (mem_fsDel _ _ _).mpr ⟨hpre, hij⟩
    · have hfs : (rescanOne s j).fs = s.fs := by
        simp [rescanOne, hU]
      exact absurd (hfs ▸ hpre) hpost
  | download j hid => exact absurd (mem_fsAdd_of_mem hpre) hpost
  | workEloWrite pre post t hrun hkind hpc halive =>
    exact absurd (mem_fsAdd_of_mem hpre) hpost
  | workPgnTable pre post t hrun hkind hpc halive =>
    exact absurd (mem_fsAdd_of_mem hpre) hpost
  | workPgnLog pre post t hrun hkind hpc halive =>
    exact absurd (mem_fsAdd_of_mem hpre) hpost
  | crash pre post t hrun halive => exact absurd hpre hpost

theorem unlink_requires_artifacts_witness :
    pgnLogPath "2015-03" ∈
      (initState ⟨["2015-03"], 1, fun _ => true,
        [pgnBz2Path "2015-03", eloCsvPath "2015-03", pgnCsvPath "2015-03",
          pgnLogPath "2015-03"]⟩).fs ∧
    pgnCsvPath "2015-03" ∈
      (initState ⟨["2015-03"], 1, fun _ => true,
        [pgnBz2Path "2015-03", eloCsvPath "2015-03", pgnCsvPath "2015-03",
          pgnLogPath "2015-03"]⟩).fs :=
  unlink_requires_artifacts
    ⟨["2015-03"], 1, fun _ => true,
      [pgnBz2Path "2015-03", eloCsvPath "2015-03", pgnCsvPath "2015-03",
        pgnLogPath "2015-03"]⟩
    ⟨by decide, by decide, by decide, by decide⟩ SchedReach.init
    (SchedStep.rescan _ "2015-03" (by decide)) "2015-03" (by decide) (by decide)

/-- C5 (counterexample): on a digest mismatch, `check_file_errors` raises the
integrity error but the corrupt local copy is NOT deleted — the file is still
present, with its wrong digest, after the failed verification. -/
theorem check_file_errors_no_delete_counterexample :
    check_file_errors [("f.pgn.bz2", "aaa")] "2017-01" "f.pgn.bz2"
        [("lichess/pgn_bz2/f.pgn.bz2", "bbb")] =
      (Except.error (FileCheckError.wrongSha256sum "f.pgn.bz2"),
        [("lichess/pgn_bz2/f.pgn.bz2", "bbb")]) ∧
    alookup [("lichess/pgn_bz2/f.pgn.bz2", "bbb")]
        ("lichess/pgn_bz2/" ++ "f.pgn.bz2") = some "bbb" :=
  ⟨by rfl, by decide⟩

/-- C5 (amended): `check_file_errors` raises the unknown-database error for a
filename with no checksum entry, the missing-archive error for a manifest
entry whose local file is absent, and the integrity error for a digest
mismatch — and in every case it leaves the filesystem unchanged (no deletion
of the corrupt copy takes place; no re-download is triggered by it). -/
theorem check_file_errors_cases (checksums : List (String × String))
    (database_id filename : String) (files : List (String × String)) :
    (check_file_errors checksums database_id filename files).2 = files ∧
    (alookup checksums filename = none →
      (check_file_errors checksums database_id filename files).1 =
        Except.error (FileCheckError.checksumNotFound database_id)) ∧
    (∀ expected, alookup checksums filename = some expected →
      alookup files ("lichess/pgn_bz2/" ++ filename) = none →
      (check_file_errors checksums database_id filename files).1 =
        Except.error (FileCheckError.fileDoesNotExist filename)) ∧
    (∀ expected actual, alookup checksums filename = some expected →
      alookup files ("lichess/pgn_bz2/" ++ filename) = some actual →
      expected ≠ actual →
      (check_file_errors checksums database_id filename files).1 =
        Except.error (FileCheckError.wrongSha256sum filename)) := by
  refine ⟨?_, ?_, ?_, ?_⟩
  · cases h1 : alookup checksums filename with
    | none => simp [check_file_errors, h1]
    | some expected =>
      cases h2 : alookup files ("lichess/pgn_bz2/" ++ filename) with
      | none => simp [check_file_errors, h1, h2]
      | some actual =>
        by_cases h3 : expected = actual <;> simp [check_file_errors, h1, h2, h3]
  · intro h1
    simp [check_file_errors, h1]
  · intro expected h1 h2
    simp [check_file_errors, h1, h2]
  · intro expected actual h1 h2 h3
    simp [check_file_errors, h1, h2, h3]

theorem check_file_errors_cases_witness :
    (alookup [("f.pgn.bz2", "aaa")] "f.pgn.bz2" = some "aaa" ∧
      alookup [("lichess/pgn_bz2/f.pgn.bz2", "bbb")]
        ("lichess/pgn_bz2/" ++ "f.pgn.bz2") = some "bbb" ∧
      ("aaa" : String) ≠ "bbb") ∧
    (check_file_errors [("f.pgn.bz2", "aaa")] "2017-01" "f.pgn.bz2"
        [("lichess/pgn_bz2/f.pgn.bz2", "bbb")]).2 =
      [("lichess/pgn_bz2/f.pgn.bz2", "bbb")] ∧
    (check_file_errors [("f.pgn.bz2", "aaa")] "2017-01" "f.pgn.bz2"
        [("lichess/pgn_bz2/f.pgn.bz2", "bbb")]).1 =
      Except.error (FileCheckError.wrongSha256sum "f.pgn.bz2") :=
  ⟨⟨by decide, by decide, by decide⟩,
   (check_file_errors_cases [("f.pgn.bz2", "aaa")] "2017-01" "f.pgn.bz2"
      [("lichess/pgn_bz2/f.pgn.bz2", "bbb")]).1,
   (check_file_errors_cases [("f.pgn.bz2", "aaa")] "2017-01" "f.pgn.bz2"
      [("lichess/pgn_bz2/f.pgn.bz2", "bbb")]).2.2.2 "aaa" "bbb"
     (by decide) (by decide) (by decide)⟩

/-- C6 (counterexample): two runs of the per-month processor on byte-identical
archive lines, the same elo csv and the same tunables, differing only in the
per-process set-iteration order of the game's position set (both orders
enumerate exactly the distinct positions), write tables whose rows are in
different byte order: the two equal-count rows are swapped.  Byte-identical
output is therefore not guaranteed across runs. -/
theorem pgn_csv_determinism_counterexample :
    ((["P", "Q"].dedup : List String).Perm (["P", "Q"].dedup) ∧
      (["P", "Q"].dedup.reverse : List String).Perm (["P", "Q"].dedup)) ∧
    (generate_lichess_monthly_database_pgn_csv (fun _ => ["P", "Q"])
      (fun l => l.dedup) [(0, 1)] 1 1 1 ["1. e4"]).table = [("P", 1), ("Q", 1)] ∧
    (generate_lichess_monthly_database_pgn_csv (fun _ => ["P", "Q"])
      (fun l => l.dedup.reverse) [(0, 1)] 1 1 1 ["1. e4"]).table = [("Q", 1), ("P", 1)] ∧
    (generate_lichess_monthly_database_pgn_csv (fun _ => ["P", "Q"])
      (fun l => l.dedup) [(0, 1)] 1 1 1 ["1. e4"]).table ≠
    (generate_lichess_monthly_database_pgn_csv (fun _ => ["P", "Q"])
      (fun l => l.dedup.reverse) [(0, 1)] 1 1 1 ["1. e4"]).table :=
  ⟨⟨by decide, by decide⟩, by decide, by decide, by decide⟩

/-- C6 (amended): over all runs — with the set-iteration order of each game's
position set modelled as a parameter ranging over the enumerations of the
distinct positions — the per-month processor run twice on byte-identical
archive lines with identical elo csv and tunables yields the same threshold,
the same position→count mapping, tables equal as multisets of rows, and a
byte-identical completion log; only the relative byte order of equal-count
table rows may differ between runs. -/
theorem pgn_csv_run_invariance (sim : String → List String)
    (ord1 ord2 : List String → List String)
    (h1 : ∀ l, (ord1 l).Perm l.dedup) (h2 : ∀ l, (ord2 l).Perm l.dedup)
    (eloCsv : List (Nat × Nat)) (totalGames isf limit : Nat) (lines : List String) :
    (generate_lichess_monthly_database_pgn_csv sim ord1 eloCsv totalGames isf limit
        lines).min_elo =
      (generate_lichess_monthly_database_pgn_csv sim ord2 eloCsv totalGames isf limit
        lines).min_elo ∧
    (∀ p, ddGet (pass2Counts sim ord1 (computeMinElo eloCsv isf totalGames) lines) p =
      ddGet (pass2Counts sim ord2 (computeMinElo eloCsv isf totalGames) lines) p) ∧
    (generate_lichess_monthly_database_pgn_csv sim ord1 eloCsv totalGames isf limit
        lines).table.Perm
      (generate_lichess_monthly_database_pgn_csv sim ord2 eloCsv totalGames isf limit
        lines).table ∧
    (generate_lichess_monthly_database_pgn_csv sim ord1 eloCsv totalGames isf limit
        lines).log =
      (generate_lichess_monthly_database_pgn_csv sim ord2 eloCsv totalGames isf limit
        lines).log := by
  have hpt := pass2Counts_pointwise sim ord1 ord2 h1 h2
    (computeMinElo eloCsv isf totalGames) lines
  have hv1 := pass2Counts_vals_pos sim ord1 (computeMinElo eloCsv isf totalGames) lines
  have hv2 := pass2Counts_vals_pos sim ord2 (computeMinElo eloCsv isf totalGames) lines
  have hn1 := pass2Counts_keys_nodup sim ord1 (computeMinElo eloCsv isf totalGames) lines
  have hn2 := pass2Counts_keys_nodup sim ord2 (computeMinElo eloCsv isf totalGames) lines
  have hperm := dd_perm_of_pointwise _ _ hv1 hv2 hn1 hn2 hpt
  have hlen := hperm.length_eq
  have hmemIff : INITIAL_POSITION_MOVELESS_FEN ∈
      ddKeys (pass2Counts sim ord1 (computeMinElo eloCsv isf totalGames) lines) ↔
      INITIAL_POSITION_MOVELESS_FEN ∈
      ddKeys (pass2Counts sim ord2 (computeMinElo eloCsv isf totalGames) lines) := by
    rw [mem_ddKeys_iff_pos _ hv1, mem_ddKeys_iff_pos _ hv2, hpt]
  have hdist : (ddTouch (pass2Counts sim ord1 (computeMinElo eloCsv isf totalGames) lines)
        INITIAL_POSITION_MOVELESS_FEN).length =
      (ddTouch (pass2Counts sim ord2 (computeMinElo eloCsv isf totalGames) lines)
        INITIAL_POSITION_MOVELESS_FEN).length := by
    rw [length_ddTouch, length_ddTouch, hlen]
    by_cases hmem : INITIAL_POSITION_MOVELESS_FEN ∈
        ddKeys (pass2Counts sim ord1 (computeMinElo eloCsv isf totalGames) lines)
    · rw [if_pos hmem, if_pos (hmemIff.mp hmem)]
    · rw [if_neg hmem, if_neg (fun h => hmem (hmemIff.mpr h))]
  refine ⟨rfl, hpt, ?_, ?_⟩
  · show (sortByCountDesc _).Perm (sortByCountDesc _)
    exact (sortByCountDesc_perm _).trans ((hperm.filter _).trans (sortByCountDesc_perm _).symm)
  · show toString (computeMinElo eloCsv isf totalGames) ++ "\n" ++ _ ++ "\n" ++ _ ++ "\n" =
      toString (computeMinElo eloCsv isf totalGames) ++ "\n" ++ _ ++ "\n" ++ _ ++ "\n"
    rw [hpt INITIAL_POSITION_MOVELESS_FEN, hdist]

theorem pgn_csv_run_invariance_witness :
    (generate_lichess_monthly_database_pgn_csv (fun _ => ["P", "Q"])
        (fun l => l.dedup) [(0, 1)] 1 1 1 ["1. e4"]).log =
      (generate_lichess_monthly_database_pgn_csv (fun _ => ["P", "Q"])
        (fun l => l.dedup.reverse) [(0, 1)] 1 1 1 ["1. e4"]).log :=
  (pgn_csv_run_invariance (fun _ => ["P", "Q"]) (fun l => l.dedup)
    (fun l => l.dedup.reverse) (fun l => List.Perm.refl l.dedup)
    (fun l => l.dedup.reverse_perm) [(0, 1)] 1 1 1 ["1. e4"]).2.2.2

/-- C7: in every reachable state of the scheduler loop with concurrency
limit `threads_count`, the running set holds at most `threads_count` worker
processes, and no database id is started twice within the run: the started
histories of the two worker kinds together carry pairwise-distinct ids (and
a crashed id is never re-created, its need flag staying false). -/
theorem concurrency_bound_single_admission (P : InitParams) (G : GoodParams P)
    {s : SchedState} (hr : SchedReach P s) :
    s.running.length ≤ P.threads ∧ (s.startedElo ++ s.startedPgn).Nodup := by
  have inv := schedInv_reach P G hr
  constructor
  · rw [← inv.threads_eq]
    exact inv.run_bound
  · have hne : s.startedElo.Nodup := by
      rw [List.nodup_iff_count_le_one]
      intro a
      have h0 := inv.countE a
      rw [List.count_append] at h0
      omega
    have hnp : s.startedPgn.Nodup := by
      rw [List.nodup_iff_count_le_one]
      intro a
      have h0 := inv.countP a
      rw [List.count_append] at h0
      omega
    refine hne.append hnp ?_
    intro a h1 h2
    have hA := (inv.eloSide a (Or.inr h1)).2
    have hB := (inv.pgnSide a (Or.inr h2)).2
    rw [hA] at hB
    exact Bool.false_ne_true hB

theorem concurrency_bound_witness :
    (rescanOne (initState ⟨["2015-03"], 2, fun _ => true, [pgnBz2Path "2015-03"]⟩)
        "2015-03").running.length ≤ 2 ∧
    ((rescanOne (initState ⟨["2015-03"], 2, fun _ => true, [pgnBz2Path "2015-03"]⟩)
        "2015-03").startedElo ++
      (rescanOne (initState ⟨["2015-03"], 2, fun _ => true, [pgnBz2Path "2015-03"]⟩)
        "2015-03").startedPgn).Nodup :=
  concurrency_bound_single_admission
    ⟨["2015-03"], 2, fun _ => true, [pgnBz2Path "2015-03"]⟩
    ⟨by decide, by decide, by decide, by decide⟩
    (SchedReach.step SchedReach.init (SchedStep.rescan _ "2015-03" (by decide)))

/-- C8 (counterexample): with an elo csv whose derived threshold (5000)
excludes the stream's only game, pass 2 accumulates no positions, yet the
recorded distinct-position count is 1, not 0: the log write's defaultdict
read of the canonical starting position inserts the missing key before
`len(position_counts)` is taken.  The log written is `"5000\n0\n1\n"`. -/
theorem completion_log_distinct_counterexample :
    pass2Counts (fun _ => ["P", "Q"]) (fun l => l.dedup)
      (computeMinElo [(5000, 1)] 1 1) ["1. e4"] = [] ∧
    (generate_lichess_monthly_database_pgn_csv (fun _ => ["P", "Q"])
      (fun l => l.dedup) [(5000, 1)] 1 1 1 ["1. e4"]).distinctCount = 1 ∧
    (generate_lichess_monthly_database_pgn_csv (fun _ => ["P", "Q"])
      (fun l => l.dedup) [(5000, 1)] 1 1 1 ["1. e4"]).log = "5000\n0\n1\n" ∧
    (1 : Nat) ≠ ([] : List (String × Nat)).length :=
  ⟨by decide, by decide, by decide, by decide⟩

/-- C8 (amended): the per-archive processing log is exactly the three
newline-terminated scalar fields threshold, canonical-starting-position
count, distinct position count, in that order, and the combined log is the
games-count line followed by the positions-count line; the canonical count
equals the starting position's accumulated pass-2 frequency (0 when absent),
and the recorded distinct count equals the number of distinct positions
accumulated during pass 2 when the starting position is among them, and
exceeds it by one otherwise (the defaultdict read inserts the key before
`len` is evaluated). -/
theorem completion_log_fields (sim : String → List String)
    (ord : List String → List String) (eloCsv : List (Nat × Nat))
    (totalGames isf limit : Nat) (lines : List String)
    (tables : List (List (String × Nat))) (climit : Nat) :
    (generate_lichess_monthly_database_pgn_csv sim ord eloCsv totalGames isf limit
        lines).log =
      toString (generate_lichess_monthly_database_pgn_csv sim ord eloCsv totalGames isf
        limit lines).min_elo ++ "\n" ++
      toString (generate_lichess_monthly_database_pgn_csv sim ord eloCsv totalGames isf
        limit lines).canonCount ++ "\n" ++
      toString (generate_lichess_monthly_database_pgn_csv sim ord eloCsv totalGames isf
        limit lines).distinctCount ++ "\n" ∧
    (generate_lichess_monthly_database_pgn_csv sim ord eloCsv totalGames isf limit
        lines).canonCount =
      ddGet (pass2Counts sim ord (computeMinElo eloCsv isf totalGames) lines)
        INITIAL_POSITION_MOVELESS_FEN ∧
    (generate_lichess_monthly_database_pgn_csv sim ord eloCsv totalGames isf limit
        lines).distinctCount =
      (if INITIAL_POSITION_MOVELESS_FEN ∈
          ddKeys (pass2Counts sim ord (computeMinElo eloCsv isf totalGames) lines)
       then (pass2Counts sim ord (computeMinElo eloCsv isf totalGames) lines).length
       else (pass2Counts sim ord (computeMinElo eloCsv isf totalGames) lines).length + 1) ∧
    (combine_monthly_csvs tables climit).log =
      "GAMES_COUNT:     " ++ toString (combine_monthly_csvs tables climit).gamesCount ++
        "\n" ++ "POSITIONS_COUNT: " ++
        toString (combine_monthly_csvs tables climit).positionsCount ++ "\n" := by
  refine ⟨rfl, rfl, ?_, rfl⟩
  show (ddTouch (pass2Counts sim ord (computeMinElo eloCsv isf totalGames) lines)
      INITIAL_POSITION_MOVELESS_FEN).length = _
  exact length_ddTouch _ _

/-- C9: if a month's rating-summary csv (`{id}_elo.csv`) does not exist when
the loop starts, the in-loop re-scan never marks it available: the re-scan
tests the suffix-less path `lichess/elo_csv/{id}`, which differs from the
written path and is never created, so the availability flag stays false in
every reachable state, the dependent position-extraction task is never
created or launched, and the month's archive is never reclaimed within the
run. -/
theorem elo_rescan_never_detects (P : InitParams) (G : GoodParams P)
    {s : SchedState} (hr : SchedReach P s) (i : String) (hi : i ∈ P.ids)
    (h0 : eloCsvPath i ∉ P.fs0) :
    s.eloAvail i = false ∧ i ∉ s.pgnPend ∧ i ∉ s.startedPgn ∧ i ∉ s.unlinked ∧
    eloRescanPath i ≠ eloCsvPath i := by
  have inv := schedInv_reach P G hr
  have hinit : initEloAvail P i = false := by
    simp [initEloAvail, h0]
  refine ⟨?_, ?_, ?_, ?_, eloRescanPath_ne_eloCsvPath (G.idLen i hi) i⟩
  · rw [inv.eloA_eq i hi, hinit]
  · intro hm
    have h2 := (inv.pgnSide i (Or.inl hm)).2
    rw [hinit] at h2
    exact Bool.false_ne_true h2
  · intro hm
    have h2 := (inv.pgnSide i (Or.inr hm)).2
    rw [hinit] at h2
    exact Bool.false_ne_true h2
  · intro hm
    have h2 := (inv.unlinked_elo i hm).2
    rw [hinit] at h2
    exact Bool.false_ne_true h2

theorem elo_rescan_never_detects_witness :
    wState9d.eloAvail "2015-03" = false ∧ "2015-03" ∉ wState9d.pgnPend ∧
    "2015-03" ∉ wState9d.startedPgn ∧ "2015-03" ∉ wState9d.unlinked ∧
    eloRescanPath "2015-03" ≠ eloCsvPath "2015-03" ∧
    eloCsvPath "2015-03" ∈ wState9d.fs :=
  have hreach : SchedReach wParams9 wState9d :=
    SchedReach.step
      (SchedReach.step
        (SchedReach.step SchedReach.init
          (SchedStep.startElo (initState wParams9) "2015-03" [] (by decide) (by decide)))
        (SchedStep.workEloWrite wState9b [] [] ⟨"2015-03", TaskKind.elo, 0, true⟩
          (by decide) rfl rfl rfl))
      (SchedStep.rescan wState9c "2015-03" (by decide))
  have h := elo_rescan_never_detects wParams9
    ⟨by decide, by decide, by decide, by decide⟩ hreach "2015-03" (by decide) (by decide)
  ⟨h.1, h.2.1, h.2.2.1, h.2.2.2.1, h.2.2.2.2, by decide⟩

/-- C10 (amended): the rating slots are never reset between game records, in
both passes.  For a game record (a tag-free header segment followed by its
move-text line) containing no `WhiteElo`/`BlackElo` line, the slot pair in
force at the record is exactly the pair carried over from the earlier lines
of the stream: pass 1 increments the histogram bucket of the carried
minimum, pass 2 admits the game exactly when the carried minimum meets the
threshold, and a slot is 0 if no earlier line ever set it. -/
theorem rating_slots_carry_over (pre seg : List String) (g : String)
    (hseg : ∀ l ∈ seg, containsSub l "WhiteElo" = false ∧
      containsSub l "BlackElo" = false ∧ isGameLine l = false)
    (hw : containsSub g "WhiteElo" = false) (hb : containsSub g "BlackElo" = false)
    (hg : isGameLine g = true) (min_elo : Nat) (sim : String → List String)
    (ord : List String → List String) :
    streamElos (pre ++ (seg ++ [g])) = streamElos pre ∧
    generate_elo_histogram (pre ++ (seg ++ [g])) =
      ddIncr (generate_elo_histogram pre)
        (min (streamElos pre).1 (streamElos pre).2) ∧
    pass2Counts sim ord min_elo (pre ++ (seg ++ [g])) =
      (if min_elo ≤ min (streamElos pre).1 (streamElos pre).2
       then processGame (ord (sim g)) (pass2Counts sim ord min_elo (pre ++ seg))
       else pass2Counts sim ord min_elo (pre ++ seg)) ∧
    ((∀ l ∈ pre, ¬ (containsSub l "WhiteElo" = true ∧ digitsOf l ≠ [])) →
      (streamElos pre).1 = 0) ∧
    ((∀ l ∈ pre, ¬ (containsSub l "BlackElo" = true ∧ digitsOf l ≠ [])) →
      (streamElos pre).2 = 0) := by
  have hseg2 : ∀ l ∈ seg, containsSub l "WhiteElo" = false ∧
      containsSub l "BlackElo" = false :=
    fun l hl => ⟨(hseg l hl).1, (hseg l hl).2.1⟩
  have hstep1 : ∀ st : (Nat × Nat) × List (Nat × Nat),
      pass1Step st g = (st.1, ddIncr st.2 (min st.1.1 st.1.2)) := by
    intro st
    simp [pass1Step, hg, update_game_elos_noop g st.1 hw hb]
  have hstep2 : ∀ st : (Nat × Nat) × List (String × Nat),
      pass2Step sim ord min_elo st g =
        (st.1, if min_elo ≤ min st.1.1 st.1.2
               then processGame (ord (sim g)) st.2 else st.2) := by
    intro st
    simp only [pass2Step, update_game_elos_noop g st.1 hw hb, hg, true_and]
    split
    · rfl
    · rfl
  refine ⟨?_, ?_, ?_, foldl_update_white_zero pre, foldl_update_black_zero pre⟩
  · rw [streamElos_append, List.foldl_append, foldl_update_noop seg hseg2]
    simp [update_game_elos_noop g _ hw hb, streamElos]
  · show ((pre ++ (seg ++ [g])).foldl pass1Step ((0, 0), [])).2 = _
    rw [List.foldl_append, List.foldl_append, pass1_fold_noop seg hseg]
    simp only [List.foldl_cons, List.foldl_nil, hstep1]
    rw [pass1_fold_fst]
    rfl
  · show ((pre ++ (seg ++ [g])).foldl (pass2Step sim ord min_elo) ((0, 0), [])).2 = _
    rw [List.foldl_append, List.foldl_append, pass2_fold_noop sim ord min_elo seg hseg]
    simp only [List.foldl_cons, List.foldl_nil, hstep2]
    rw [pass2_fold_fst]
    have hps : pass2Counts sim ord min_elo (pre ++ seg) =
        (pre.foldl (pass2Step sim ord min_elo) ((0, 0), [])).2 := by
      show ((pre ++ seg).foldl (pass2Step sim ord min_elo) ((0, 0), [])).2 = _
      rw [List.foldl_append, pass2_fold_noop sim ord min_elo seg hseg]
    rw [hps]
    rfl

theorem rating_slots_carry_over_witness :
    (∀ l ∈ (["[Site \"x\"]"] : List String), containsSub l "WhiteElo" = false ∧
      containsSub l "BlackElo" = false ∧ isGameLine l = false) ∧
    streamElos (["[WhiteElo \"1500\"]", "[BlackElo \"1437\"]"] ++
        (["[Site \"x\"]"] ++ ["1. e4 e5 1-0"])) =
      streamElos ["[WhiteElo \"1500\"]", "[BlackElo \"1437\"]"] ∧
    generate_elo_histogram (["[WhiteElo \"1500\"]", "[BlackElo \"1437\"]"] ++
        (["[Site \"x\"]"] ++ ["1. e4 e5 1-0"])) =
      ddIncr (generate_elo_histogram ["[WhiteElo \"1500\"]", "[BlackElo \"1437\"]"])
        (min (streamElos ["[WhiteElo \"1500\"]", "[BlackElo \"1437\"]"]).1
          (streamElos ["[WhiteElo \"1500\"]", "[BlackElo \"1437\"]"]).2) :=
  have h := rating_slots_carry_over ["[WhiteElo \"1500\"]", "[BlackElo \"1437\"]"]
    ["[Site \"x\"]"] "1. e4 e5 1-0" (by decide) (by decide) (by decide) (by decide)
    0 (fun _ => ["P"]) (fun l => l.dedup)
  ⟨by decide, h.1, h.2.1⟩

/-- C10 (counterexample): a line `[WhiteElo "0"]` does set the white slot (its
digit string is "0", which is nonempty), and likewise for black; after two
such lines the slots are (0, 0) and a subsequent tag-free game record is
bucketed at min-rating 0 even though both slots were set by earlier lines —
so "0 only if no earlier line ever set the slot" fails. -/
theorem rating_slot_zero_counterexample :
    (containsSub "[WhiteElo \"0\"]" "WhiteElo" = true ∧
      digitsOf "[WhiteElo \"0\"]" ≠ []) ∧
    (containsSub "[BlackElo \"0\"]" "BlackElo" = true ∧
      digitsOf "[BlackElo \"0\"]" ≠ []) ∧
    streamElos ["[WhiteElo \"0\"]", "[BlackElo \"0\"]"] = (0, 0) ∧
    generate_elo_histogram ["[WhiteElo \"0\"]", "[BlackElo \"0\"]", "1. e4 d5 1-0"] =
      [(0, 1)] :=
  ⟨⟨by decide, by decide⟩, ⟨by decide, by decide⟩, by decide, by decide⟩

end ChessAnalyzer
